import Mathlib

/-!
Verification of the grid-layout engine (`src/lib.rs`).

The Rust source is shallowly embedded: `u16` values are modelled as `Nat`,
`i32` intermediates as `Int` (a separate checked model guards the `i32`/`u16`
ranges where overflow is at issue), `Vec` as `List`, and the
`BinaryHeap<WeightItem>` as a list popped through `popMax`, which returns the
greatest element in the derived lexicographic order (weight, then index) —
the order `#[derive(PartialOrd, Ord)]` gives `WeightItem` and the order in
which `BinaryHeap::pop` returns elements (all elements are distinct because
indices are distinct, so the pop order is fully determined).
-/

/-- `GridDimension { min: u16, weight: u16 }` from the source. -/
structure GridDimension where
  min : Nat
  weight : Nat
deriving DecidableEq

instance : Inhabited GridDimension := ⟨⟨0, 0⟩⟩

/-- `WeightItem { weight: i32, index: usize }` from the source. -/
structure WeightItem where
  weight : Int
  index : Nat
deriving DecidableEq

/-- The derived lexicographic order on `WeightItem` (field order: weight, index):
`a ≤ b`. -/
def wiLe (a b : WeightItem) : Bool :=
  a.weight < b.weight || (a.weight = b.weight && a.index ≤ b.index)

/-- `BinaryHeap::pop`: remove and return the greatest element (`none` on an
empty heap). The remaining elements keep their relative order; since all
indices in the heap are distinct the popped element is the unique maximum,
so this models the Rust heap's pop exactly. -/
def popMax : List WeightItem → Option (WeightItem × List WeightItem)
  | [] => none
  | x :: xs =>
    match popMax xs with
    | none => some (x, [])
    | some (m, rest) => if wiLe x m then some (m, x :: rest) else some (x, m :: rest)

/-- The mutable state of the allocation loop in `layout_grid_dim`:
`sizes`, `allocate`, and the heap contents. -/
structure AllocState where
  sizes : List Int
  allocate : Int
  heap : List WeightItem
deriving DecidableEq

/-- One iteration body of the `while allocate > 0` loop, after popping
`biggest` (here `b`) with remainder `rest`. Mirrors lines 70-87 of the
source: either the fast division branch (`biggest.weight > total_weight`)
or the single-unit branch; the updated item is pushed back. -/
def allocStep (T : Int) (b : WeightItem) (rest : List WeightItem)
    (sizes : List Int) (allocate : Int) : AllocState :=
  if T < b.weight then
    let amount := b.weight / T
    { sizes := sizes.set b.index (sizes.getD b.index 0 + amount)
      allocate := allocate - amount
      heap := rest ++ [⟨b.weight - T * amount, b.index⟩] }
  else
    { sizes := sizes.set b.index (sizes.getD b.index 0 + 1)
      allocate := allocate - 1
      heap := rest ++ [⟨b.weight - T, b.index⟩] }

/-- The `while allocate > 0` loop. `none` models the early `return` taken
when the heap is empty (reachable only for an empty dimension list, since
every iteration pushes the popped item back). The fuel argument is
`allocate.toNat` at the call site; every iteration decreases `allocate` by
at least one on all states reachable from `layout_grid_dim`'s entry, so the
fuel never runs out before the guard fails. -/
def allocRun (T : Int) : Nat → AllocState → Option AllocState
  | 0, st => some st
  | fuel + 1, st =>
    if 0 < st.allocate then
      match popMax st.heap with
      | none => none
      | some (b, rest) => allocRun T fuel (allocStep T b rest st.sizes st.allocate)
    else some st

/-- `sizes` before the loop: `1 + dims[i].min` (one leading border unit plus
the minimum). -/
def initSizes (dims : List GridDimension) : List Int :=
  dims.map fun d => 1 + (d.min : Int)

/-- `allocate = length - taken_up - 1` (the extra `1` is the right border). -/
def initAllocate (dims : List GridDimension) (length : Nat) : Int :=
  (length : Int) - (initSizes dims).sum - 1

/-- `total_weight`: the sum of the weights as `i32`. -/
def totalWeight (dims : List GridDimension) : Int :=
  (dims.map fun d => (d.weight : Int)).sum

/-- The initial heap: for each dimension `i`,
`weight * allocate - total_weight * min` tokens. -/
def initHeap (dims : List GridDimension) (allocate T : Int) : List WeightItem :=
  dims.enum.map fun p => ⟨(p.2.weight : Int) * allocate - T * (p.2.min : Int), p.1⟩

/-- The loop's entry state. -/
def initState (dims : List GridDimension) (length : Nat) : AllocState :=
  { sizes := initSizes dims
    allocate := initAllocate dims length
    heap := initHeap dims (initAllocate dims length) (totalWeight dims) }

/-- The state after the allocation loop, `none` if the early `return` fired. -/
def allocFinal (dims : List GridDimension) (length : Nat) : Option AllocState :=
  allocRun (totalWeight dims) (initAllocate dims length).toNat (initState dims length)

/-- The cumulative-coordinate loop: push `acc`, add each size, and push the
final `acc` for the right border. -/
def accBounds (start : Nat) : List Int → List Nat
  | [] => [start]
  | s :: rest => start :: accBounds (start + s.toNat) rest

/-- `layout_grid_dim`: the boundary-coordinate list for one axis. On the
early `return` the target vector keeps only the `clear()` at entry, i.e. it
is empty. -/
def layout_grid_dim (dims : List GridDimension) (start length : Nat) : List Nat :=
  match allocFinal dims length with
  | none => []
  | some st => accBounds start st.sizes

/-- Per-dimension extra units beyond `1 + min`, as distributed by the loop
(empty when the early `return` fired and nothing was distributed). -/
def allocatedExtras (dims : List GridDimension) (length : Nat) : List Int :=
  match allocFinal dims length with
  | none => []
  | some st => List.zipWith (· - ·) st.sizes (initSizes dims)

/-- `ratatui::layout::Rect` (all fields `u16`). -/
structure Rect where
  x : Nat
  y : Nat
  width : Nat
  height : Nat
deriving DecidableEq

/-- `Rect::right = x.saturating_add(width)` (saturating at `u16::MAX`). -/
def Rect.right (r : Rect) : Nat := min (r.x + r.width) 65535

/-- `Rect::bottom = y.saturating_add(height)` (saturating at `u16::MAX`). -/
def Rect.bottom (r : Rect) : Nat := min (r.y + r.height) 65535

/-- `Rect::intersection` from ratatui: the overlapping rectangle, with
saturating subtraction giving a zero-sized result on disjoint inputs. -/
def Rect.intersection (a b : Rect) : Rect :=
  let x1 := max a.x b.x
  let y1 := max a.y b.y
  let x2 := min a.right b.right
  let y2 := min a.bottom b.bottom
  ⟨x1, y1, x2 - x1, y2 - y1⟩

/-- Read grid point `(i, j)` of the visibility grid; out-of-range reads
default to `true` (visible), matching the grid's initialisation value. -/
def get2d (g : List (List Bool)) (i j : Nat) : Bool :=
  (g.getD i []).getD j true

/-- `grid_points[i][j].visible = false`: point assignment in the marking
loop (no-op out of range, which never happens on the clipped ranges). -/
def set2dFalse (g : List (List Bool)) (i j : Nat) : List (List Bool) :=
  g.set i ((g.getD i []).set j false)

/-- The body of `for location in &self.widget_locations`: clip the span to
the grid's index bounds, skip degenerate spans, and mark every point with
`x+1 ≤ i < right-1`, `y+1 ≤ j < bottom-1` occluded (the two nested `for`
loops, rendered as folds over the same ranges). -/
def markSpan (lenx leny : Nat) (g : List (List Bool)) (loc : Rect) : List (List Bool) :=
  let l := loc.intersection ⟨0, 0, lenx, leny⟩
  if l.right ≤ 1 || l.bottom ≤ 1 then g
  else
    (List.range' (l.x + 1) (l.right - 1 - (l.x + 1))).foldl
      (fun h i =>
        (List.range' (l.y + 1) (l.bottom - 1 - (l.y + 1))).foldl
          (fun h2 j => set2dFalse h2 i j) h)
      g

/-- The visibility grid built by `compute_layout`: all-visible
`edge_layout_x.len() × edge_layout_y.len()`, then each widget span marks its
interior occluded. -/
def computeGridPoints (spans : List Rect) (lenx leny : Nat) : List (List Bool) :=
  spans.foldl (markSpan lenx leny) (List.replicate lenx (List.replicate leny true))

/-- `symbols::line::NORMAL.vertical` from ratatui. -/
def NORMAL_vertical : String := "│"

/-- `symbols::line::NORMAL.horizontal` from ratatui. -/
def NORMAL_horizontal : String := "─"

/-- `symbols::line::NORMAL.top_left` from ratatui. -/
def NORMAL_top_left : String := "┌"

/-- `symbols::line::NORMAL.top_right` from ratatui. -/
def NORMAL_top_right : String := "┐"

/-- `symbols::line::NORMAL.bottom_left` from ratatui. -/
def NORMAL_bottom_left : String := "└"

/-- `symbols::line::NORMAL.bottom_right` from ratatui. -/
def NORMAL_bottom_right : String := "┘"

/-- `symbols::line::NORMAL.vertical_left` from ratatui. -/
def NORMAL_vertical_left : String := "┤"

/-- `symbols::line::NORMAL.vertical_right` from ratatui. -/
def NORMAL_vertical_right : String := "├"

/-- `symbols::line::NORMAL.horizontal_down` from ratatui. -/
def NORMAL_horizontal_down : String := "┬"

/-- `symbols::line::NORMAL.horizontal_up` from ratatui. -/
def NORMAL_horizontal_up : String := "┴"

/-- `symbols::line::NORMAL.cross` from ratatui. -/
def NORMAL_cross : String := "┼"

/-- `corner_symbol` from the source: the 16-entry match on
`(top, right, bottom, left)` neighbor visibility. -/
def corner_symbol (top right bottom left : Bool) : String :=
  match top, right, bottom, left with
  | true, true, true, true => NORMAL_cross
  | true, true, true, false => NORMAL_vertical_right
  | true, true, false, true => NORMAL_horizontal_up
  | true, true, false, false => NORMAL_bottom_left
  | true, false, true, true => NORMAL_vertical_left
  | true, false, true, false => NORMAL_vertical
  | true, false, false, true => NORMAL_bottom_right
  | true, false, false, false => "╵"
  | false, true, true, true => NORMAL_horizontal_down
  | false, true, true, false => NORMAL_top_left
  | false, true, false, true => NORMAL_horizontal
  | false, true, false, false => "╶"
  | false, false, true, true => NORMAL_top_right
  | false, false, true, false => "╷"
  | false, false, false, true => "╴"
  | false, false, false, false => " "

/-- Modelled from the spec: the conventional box-drawing glyph for a
junction, by shape class — a full cross for four connections, the T-shape
opening away from the one missing side for three, the corner or straight
line for two, the end-cap for one, blank for none. This is the
specification-side table that `corner_symbol` is compared against. -/
def conventional_corner_glyph (top right bottom left : Bool) : String :=
  let n := (if top then 1 else 0) + (if right then 1 else 0)
    + (if bottom then 1 else 0) + (if left then 1 else 0)
  if n = 4 then "┼"
  else if n = 3 then
    (if !top then "┬" else if !right then "┤" else if !bottom then "┴" else "├")
  else if n = 2 then
    (if top && bottom then "│"
     else if left && right then "─"
     else if top && right then "└"
     else if right && bottom then "┌"
     else if bottom && left then "┐"
     else "┘")
  else if n = 1 then
    (if top then "╵" else if right then "╶" else if bottom then "╷" else "╴")
  else " "

/-- Guarded `usize`/`u16` subtraction: `none` models the debug-build panic
on underflow (`attempt to subtract with overflow`). -/
def checkedSub (a b : Nat) : Option Nat :=
  if b ≤ a then some (a - b) else none

/-- Guarded `u16` addition: `none` models the debug-build panic on overflow. -/
def checkedAdd16 (a b : Nat) : Option Nat :=
  if a + b ≤ 65535 then some (a + b) else none

/-- Guarded list indexing: `none` models the index-out-of-bounds panic. -/
def listIdx {α : Type} (l : List α) (i : Nat) : Option α :=
  l.get? i

/-- `for i in 0..n` collecting each iteration's draw calls, failing if any
iteration fails. -/
def optFor {α : Type} (f : Nat → Option (List α)) : Nat → Option (List α)
  | 0 => some []
  | n + 1 => do
    let acc ← optFor f n
    let last ← f n
    pure (acc ++ last)

/-- `draw_edges`, with every subtraction and index access guarded: returns
the list of `(x, y, glyph)` buffer writes, or `none` where the Rust code
panics (e.g. `edge_layout_x.len() - 1` under debug semantics when the
boundary list is empty). Writes to cells outside the buffer are silently
dropped by `Buffer::cell_mut`, so the write list itself is unclipped. -/
def drawEdgesChecked (ex ey : List Nat) (g : List (List Bool)) :
    Option (List (Nat × Nat × String)) := do
  let nx1 ← checkedSub ex.length 1
  let hor ← optFor (fun i =>
    optFor (fun j => do
      let row ← listIdx g i
      let p ← listIdx row j
      let row2 ← listIdx g (i + 1)
      let p2 ← listIdx row2 j
      if p && p2 then do
        let y ← listIdx ey j
        let xi ← listIdx ex i
        let xi1 ← listIdx ex (i + 1)
        let xs ← checkedAdd16 xi 1
        pure ((List.range' xs (xi1 - xs)).map fun x => (x, y, NORMAL_horizontal))
      else pure []) ey.length) nx1
  let ny1 ← checkedSub ey.length 1
  let ver ← optFor (fun i =>
    optFor (fun j => do
      let row ← listIdx g i
      let p ← listIdx row j
      let p2 ← listIdx row (j + 1)
      if p && p2 then do
        let x ← listIdx ex i
        let yj ← listIdx ey j
        let yj1 ← listIdx ey (j + 1)
        let ys ← checkedAdd16 yj 1
        pure ((List.range' ys (yj1 - ys)).map fun y => (x, y, NORMAL_vertical))
      else pure []) ny1) ex.length
  pure (hor ++ ver)

/-- `j > 0 && grid_points[i][j - 1].visible`: the guarded read of the upper
neighbor (the index is checked like every direct `Vec` index). -/
def topNeighbor (row : List Bool) (j : Nat) : Option Bool :=
  if 0 < j then listIdx row (j - 1) else pure false

/-- `grid_points.get(i + 1).is_some_and(|row| row[j].visible)`: an
`Option`-returning row access followed by a direct (panicking) index. -/
def rightNeighbor (g : List (List Bool)) (i j : Nat) : Option Bool :=
  match g.get? (i + 1) with
  | none => pure false
  | some row2 => listIdx row2 j

/-- `i > 0 && grid_points[i - 1][j].visible`. -/
def leftNeighbor (g : List (List Bool)) (i j : Nat) : Option Bool :=
  if 0 < i then do
    let rowL ← listIdx g (i - 1)
    listIdx rowL j
  else pure false

/-- One iteration of the `draw_corners` loops at grid point `(i, j)`:
skip occluded points (`continue`), read the four neighbors' visibility,
and emit the selected glyph at `(edge_layout_x[i], edge_layout_y[j])`,
tagged with the grid-point index pair `(i, j)` it was produced from so
that theorems can speak about which intersection point a glyph belongs
to. -/
def cornerAt (ex ey : List Nat) (g : List (List Bool)) (i j : Nat) :
    Option (List ((Nat × Nat) × (Nat × Nat) × String)) := do
  let row ← listIdx g i
  let vis ← listIdx row j
  if !vis then pure []
  else do
    let top ← topNeighbor row j
    let rightN ← rightNeighbor g i j
    let bottomN := (row.get? (j + 1)).getD false
    let leftN ← leftNeighbor g i j
    let xi ← listIdx ex i
    let yj ← listIdx ey j
    pure [((i, j), (xi, yj), corner_symbol top rightN bottomN leftN)]

/-- `draw_corners`, guarded like `drawEdgesChecked`: the two nested loops
over all grid points. -/
def drawCornersChecked (ex ey : List Nat) (g : List (List Bool)) :
    Option (List ((Nat × Nat) × (Nat × Nat) × String)) :=
  optFor (fun i => optFor (fun j => cornerAt ex ey g i j) ey.length) ex.length

/-- `GridLayout`'s fields. `RefCell`/`Cell` interior mutability collapses
into plain fields of a state record threaded through the operations. -/
structure GridLayoutState where
  columns : List GridDimension
  rows : List GridDimension
  widget_locations : List Rect
  edge_layout_x : List Nat
  edge_layout_y : List Nat
  grid_points : List (List Bool)
  prior_area : Rect
  dirty_bit : Bool
deriving DecidableEq

/-- `GridLayout::set_columns`: replaces the list and sets the dirty bit. -/
def set_columns (g : GridLayoutState) (cs : List GridDimension) : GridLayoutState :=
  { g with columns := cs, dirty_bit := true }

/-- `GridLayout::set_rows`: replaces the list and sets the dirty bit. -/
def set_rows (g : GridLayoutState) (rs : List GridDimension) : GridLayoutState :=
  { g with rows := rs, dirty_bit := true }

/-- `GridLayout::add_widget`: pushes the span. Note: the source does not
touch `dirty_bit` here. -/
def add_widget (g : GridLayoutState) (place : Rect) : GridLayoutState :=
  { g with widget_locations := g.widget_locations ++ [place] }

/-- `GridLayout::new`. -/
def GridLayout_new : GridLayoutState :=
  { columns := [], rows := [], widget_locations := []
    edge_layout_x := [], edge_layout_y := [], grid_points := []
    prior_area := ⟨0, 0, 0, 0⟩, dirty_bit := true }

/-- `GridLayout::compute_layout`: clears the dirty bit, records the area,
lays out the x boundaries from `rows` with the area's width and the y
boundaries from `columns` with its height (as the source does), and rebuilds
the visibility grid. The `as u16` casts on the boundary-list lengths are the
`% 65536` reductions. -/
def compute_layout (g : GridLayoutState) (area : Rect) : GridLayoutState :=
  let ex := layout_grid_dim g.rows area.x area.width
  let ey := layout_grid_dim g.columns area.y area.height
  { g with dirty_bit := false, prior_area := area
           edge_layout_x := ex, edge_layout_y := ey
           grid_points := computeGridPoints g.widget_locations (ex.length % 65536) (ey.length % 65536) }

/-- The state transition of `render`: recompute the layout when the dirty
bit is set or the area changed, otherwise reuse the cache. -/
def render_state (g : GridLayoutState) (area : Rect) : GridLayoutState :=
  if g.dirty_bit ∨ area ≠ g.prior_area then compute_layout g area else g

/-- `render` with the draw phases guarded: the cache decision, then
`draw_edges` and `draw_corners` on the (possibly cached) layout. `none`
models a panic while drawing. -/
def renderChecked (g : GridLayoutState) (area : Rect) :
    Option (List (Nat × Nat × String) × List ((Nat × Nat) × (Nat × Nat) × String)) := do
  let g2 := render_state g area
  let e ← drawEdgesChecked g2.edge_layout_x g2.edge_layout_y g2.grid_points
  let c ← drawCornersChecked g2.edge_layout_x g2.edge_layout_y g2.grid_points
  pure (e, c)

/-- Guarded `i32` range check: `none` models the debug-build panic on
`i32` overflow (or the documented wrapping corruption in release builds). -/
def chkI32 (x : Int) : Option Int :=
  if -2147483648 ≤ x ∧ x < 2147483648 then some x else none

/-- `iter().sum::<i32>()` with every partial sum checked against `i32`. -/
def chkSum32 (acc : Int) : List Int → Option Int
  | [] => some acc
  | x :: xs => do chkSum32 (← chkI32 (acc + x)) xs

/-- Effectful map over a list, in order, failing if any element fails. -/
def chkList {α β : Type} (f : α → Option β) : List α → Option (List β)
  | [] => some []
  | a :: as => do
    let b ← f a
    let bs ← chkList f as
    pure (b :: bs)

/-- One guarded iteration of the allocation loop: the arithmetic of
`allocStep` with every product, sum and index access checked (`i32` ranges,
division by zero, `Vec` indexing). -/
def checkedAllocStep (T : Int) (b : WeightItem) (rest : List WeightItem)
    (sizes : List Int) (allocate : Int) : Option AllocState :=
  if T < b.weight then
    if T = 0 then none
    else do
      let amount := b.weight / T
      let alloc2 ← chkI32 (allocate - amount)
      if b.index < sizes.length then do
        let s2 ← chkI32 (sizes.getD b.index 0 + amount)
        let p ← chkI32 (T * amount)
        let w2 ← chkI32 (b.weight - p)
        pure { sizes := sizes.set b.index s2, allocate := alloc2
               heap := rest ++ [⟨w2, b.index⟩] }
      else none
  else do
    let w2 ← chkI32 (b.weight - T)
    if b.index < sizes.length then do
      let s2 ← chkI32 (sizes.getD b.index 0 + 1)
      let alloc2 ← chkI32 (allocate - 1)
      pure { sizes := sizes.set b.index s2, allocate := alloc2
             heap := rest ++ [⟨w2, b.index⟩] }
    else none

/-- The allocation loop with guarded arithmetic. The outer `Option` is
failure (a panic); the inner `Option` distinguishes the early `return`
(`none`) from normal loop exit. -/
def checkedAllocRun (T : Int) : Nat → AllocState → Option (Option AllocState)
  | 0, st => some (some st)
  | fuel + 1, st =>
    if 0 < st.allocate then
      match popMax st.heap with
      | none => some none
      | some (b, rest) => do
        let st2 ← checkedAllocStep T b rest st.sizes st.allocate
        checkedAllocRun T fuel st2
    else some (some st)

/-- The cumulative-coordinate loop with the `sizes[i] as u16` cast checked
for value preservation and the `u16` accumulation checked for overflow. -/
def chkAcc (acc : Nat) : List Int → Option (List Nat)
  | [] => some [acc]
  | s :: rest =>
    if 0 ≤ s ∧ s < 65536 then do
      let acc2 ← checkedAdd16 acc s.toNat
      let tail ← chkAcc acc2 rest
      pure (acc :: tail)
    else none

/-- `layout_grid_dim` with every intermediate arithmetic operation guarded:
`none` exactly when some `i32` product/sum/difference leaves the `i32`
range, a division by zero occurs, the `assert!` fails, the `as u16` cast
truncates, or the `u16` coordinate accumulation overflows. -/
def layout_grid_dim_checked (dims : List GridDimension) (start length : Nat) :
    Option (List Nat) := do
  let sizes0 ← chkList (fun d => chkI32 (1 + (d.min : Int))) dims
  let taken ← chkSum32 0 sizes0
  let a1 ← chkI32 ((length : Int) - taken)
  let allocate0 ← chkI32 (a1 - 1)
  let T ← chkSum32 0 (dims.map fun d => (d.weight : Int))
  let heap0 ← chkList (fun p => do
      let prod1 ← chkI32 ((p.2.weight : Int) * allocate0)
      let prod2 ← chkI32 (T * (p.2.min : Int))
      let w ← chkI32 (prod1 - prod2)
      pure (⟨w, p.1⟩ : WeightItem)) dims.enum
  match ← checkedAllocRun T allocate0.toNat
      { sizes := sizes0, allocate := allocate0, heap := heap0 } with
  | none => pure []
  | some st =>
    if 0 < st.allocate then none
    else chkAcc start st.sizes

/-- The allocation loop instrumented to fail (`none`) if the division
branch (`biggest.weight > total_weight`) is ever entered. Agreement of this
variant with `allocRun` on an input certifies that the run never takes the
division branch — in particular that the `biggest.weight / total_weight`
division (a divide-by-zero when `total_weight == 0`) is never executed. -/
def allocRunNoDiv (T : Int) : Nat → AllocState → Option AllocState
  | 0, st => some st
  | fuel + 1, st =>
    if 0 < st.allocate then
      match popMax st.heap with
      | none => none
      | some (b, rest) =>
        if T < b.weight then none
        else allocRunNoDiv T fuel (allocStep T b rest st.sizes st.allocate)
    else some st

/-- The configuration of the test scenario (`render_test`): two columns
`{min:0, weight:3}`, `{min:2, weight:1}` and four rows `{min:0, weight:1}`. -/
def scenarioColumns : List GridDimension := [⟨0, 3⟩, ⟨2, 1⟩]

/-- The four identical rows of the test scenario. -/
def scenarioRows : List GridDimension := List.replicate 4 ⟨0, 1⟩

/-- The engine state after rendering the test scenario on the 20×20 region
at the origin. -/
def scenarioState : GridLayoutState :=
  render_state (set_rows (set_columns GridLayout_new scenarioColumns) scenarioRows)
    ⟨0, 0, 20, 20⟩

/-- A 2×2 grid configuration used to exercise the caching path. -/
def cacheDemoBase : GridLayoutState :=
  set_rows (set_columns GridLayout_new [⟨0, 1⟩, ⟨0, 1⟩]) [⟨0, 1⟩, ⟨0, 1⟩]

/-- The cached state after one render of `cacheDemoBase` on a 9×9 region,
followed by `add_widget` of a span that covers the central intersection. -/
def cacheDemoAfterAdd : GridLayoutState :=
  add_widget (render_state cacheDemoBase ⟨0, 0, 9, 9⟩) ⟨0, 0, 3, 3⟩

/-- A configuration with a non-empty column list and an empty row list. -/
def emptyRowsState : GridLayoutState :=
  set_rows (set_columns GridLayout_new [⟨0, 1⟩]) []

/-- The claim's occlusion predicate: grid point `(i, j)` lies strictly
interior to the widget span `loc` once `loc` is clipped to the grid's index
bounds and found non-degenerate — strictly between the clipped span's first
covered boundary line (`l.x`, resp. `l.y`) and its last covered boundary
line (`l.right - 1`, resp. `l.bottom - 1`) on both axes. -/
def interiorOf (lenx leny : Nat) (loc : Rect) (i j : Nat) : Prop :=
  let l := loc.intersection ⟨0, 0, lenx, leny⟩
  (1 < l.right ∧ 1 < l.bottom) ∧
  l.x + 1 ≤ i ∧ i < l.right - 1 ∧ l.y + 1 ≤ j ∧ j < l.bottom - 1

/-- Proof-side potential: the total number of whole allocation units still
claimable through the division branch, `Σ ⌊max(token, 0) / T⌋` over the
heap. -/
def phi (T : Int) (heap : List WeightItem) : Int :=
  (heap.map fun it => max it.weight 0 / T).sum

/-- Proof-side invariant of the allocation loop, for arbitrary dimension
lists: the weight total is non-negative, `allocate` never becomes negative,
heap indices address `sizes`, with zero total weight every token is
non-positive (so the division branch cannot fire), and with positive total
weight the division-branch potential is bounded by `allocate`. -/
structure InvGen (T : Int) (st : AllocState) : Prop where
  t_nonneg : 0 ≤ T
  alloc_nonneg : 0 ≤ st.allocate
  idx_lt : ∀ it ∈ st.heap, it.index < st.sizes.length
  tz : T = 0 → ∀ it ∈ st.heap, it.weight ≤ 0
  phi_le : 1 ≤ T → phi T st.heap ≤ st.allocate

/-- Proof-side invariant of the allocation loop for the all-minimums-zero
case (C2): `allocate` stays non-negative, the heap's total token count
equals `total_weight * allocate`, every token stays above `-total_weight`,
the run is in one of two phases — before the first single-unit step all
tokens are non-negative; afterwards all tokens are at most `total_weight`
and the number of tokens equal to `total_weight` is bounded by `allocate` —
the heap holds exactly one item per dimension index, and each item's token
equals `weight * allocate0 - total_weight * extra` for the extra units its
dimension has received so far. -/
structure InvMZ (dims : List GridDimension) (T A0 : Int) (st : AllocState) : Prop where
  alloc_nonneg : 0 ≤ st.allocate
  sum_eq : (st.heap.map fun it => it.weight).sum = T * st.allocate
  lower : ∀ it ∈ st.heap, -T < it.weight
  phase : (∀ it ∈ st.heap, 0 ≤ it.weight) ∨
    ((∀ it ∈ st.heap, it.weight ≤ T) ∧
      (((st.heap.map fun it => it.weight).count T : Int) ≤ st.allocate))
  idx_perm : (st.heap.map fun it => it.index).Perm (List.range dims.length)
  szlen : st.sizes.length = dims.length
  link : ∀ it ∈ st.heap, it.weight
    = ((dims.getD it.index default).weight : Int) * A0
      - T * (st.sizes.getD it.index 0 - 1)

/-! ## Basic list lemmas -/

theorem getD_set_self {α : Type} (l : List α) (i : Nat) (v d : α) (h : i < l.length) :
    (l.set i v).getD i d = v := by
  induction l generalizing i with
  | nil => simp at h
  | cons a as ih =>
    cases i with
    | zero => simp [List.getD]
    | succ n =>
      simp only [List.set, List.getD_cons_succ]
      exact ih n (by simpa using h)

theorem getD_set_ne {α : Type} (l : List α) {i k : Nat} (v d : α) (h : i ≠ k) :
    (l.set i v).getD k d = l.getD k d := by
  induction l generalizing i k with
  | nil => simp
  | cons a as ih =>
    cases i with
    | zero =>
      cases k with
      | zero => exact absurd rfl h
      | succ m => simp [List.getD]
    | succ n =>
      cases k with
      | zero => simp [List.getD]
      | succ m =>
        simp only [List.set, List.getD_cons_succ]
        exact ih (by omega)

theorem getD_oob {α : Type} (l : List α) {i : Nat} (d : α) (h : l.length ≤ i) :
    l.getD i d = d := by
  induction l generalizing i with
  | nil => simp [List.getD]
  | cons a as ih =>
    cases i with
    | zero => simp at h
    | succ n => simpa [List.getD] using ih (by simpa using h)

theorem sum_set_add (l : List Int) (i : Nat) (v : Int) (h : i < l.length) :
    (l.set i (l.getD i 0 + v)).sum = l.sum + v := by
  induction l generalizing i with
  | nil => simp at h
  | cons a as ih =>
    cases i with
    | zero => simp [List.getD]; ring
    | succ n =>
      simp only [List.set, List.getD_cons_succ, List.sum_cons]
      rw [ih n (by simpa using h)]
      ring

theorem zipWith_sub_sum (a b : List Int) (h : a.length = b.length) :
    (List.zipWith (· - ·) a b).sum = a.sum - b.sum := by
  induction a generalizing b with
  | nil => cases b with
    | nil => simp
    | cons x xs => simp at h
  | cons x xs ih =>
    cases b with
    | nil => simp at h
    | cons y ys =>
      simp only [List.zipWith, List.sum_cons]
      rw [ih ys (by simpa using h)]
      ring

theorem zipWith_sub_getD (a b : List Int) {i : Nat} (h : a.length = b.length)
    (hi : i < a.length) :
    (List.zipWith (· - ·) a b).getD i 0 = a.getD i 0 - b.getD i 0 := by
  induction a generalizing b i with
  | nil => simp at hi
  | cons x xs ih =>
    cases b with
    | nil => simp at h
    | cons y ys =>
      cases i with
      | zero => simp [List.getD]
      | succ n =>
        simp only [List.zipWith, List.getD_cons_succ]
        exact ih ys (by simpa using h) (by simpa using hi)

/-! ## Lemmas about the heap model -/

theorem wiLe_total (a b : WeightItem) : wiLe a b = true ∨ wiLe b a = true := by
  simp only [wiLe, Bool.or_eq_true, decide_eq_true_eq, Bool.and_eq_true]
  omega

theorem wiLe_weight_le {a b : WeightItem} (h : wiLe a b = true) : a.weight ≤ b.weight := by
  simp only [wiLe, Bool.or_eq_true, decide_eq_true_eq, Bool.and_eq_true] at h
  omega

theorem wiLe_trans {a b c : WeightItem} (hab : wiLe a b = true) (hbc : wiLe b c = true) :
    wiLe a c = true := by
  simp only [wiLe, Bool.or_eq_true, decide_eq_true_eq, Bool.and_eq_true] at *
  omega

theorem popMax_eq_none_iff (l : List WeightItem) : popMax l = none ↔ l = [] := by
  cases l with
  | nil => simp [popMax]
  | cons x xs =>
    simp only [popMax]
    cases h : popMax xs with
    | none => simp
    | some p =>
      cases p with
      | mk m rest => by_cases hle : wiLe x m <;> simp [hle]

theorem popMax_perm {l : List WeightItem} {b : WeightItem} {rest : List WeightItem}
    (h : popMax l = some (b, rest)) : l.Perm (b :: rest) := by
  induction l generalizing b rest with
  | nil => simp [popMax] at h
  | cons x xs ih =>
    simp only [popMax] at h
    split at h
    · rename_i hnone
      have hxs : xs = [] := (popMax_eq_none_iff xs).1 hnone
      subst hxs
      simp only [Option.some.injEq, Prod.mk.injEq] at h
      obtain ⟨hb, hr⟩ := h
      subst hb; subst hr
      exact List.Perm.refl _
    · rename_i m r hsome
      have hperm := ih hsome
      split at h
      · simp only [Option.some.injEq, Prod.mk.injEq] at h
        obtain ⟨hb, hr⟩ := h
        subst hb; subst hr
        exact (List.Perm.cons x hperm).trans (List.Perm.swap m x r)
      · simp only [Option.some.injEq, Prod.mk.injEq] at h
        obtain ⟨hb, hr⟩ := h
        subst hb; subst hr
        exact List.Perm.cons x hperm

theorem popMax_is_max {l : List WeightItem} {b : WeightItem} {rest : List WeightItem}
    (h : popMax l = some (b, rest)) : ∀ x ∈ rest, wiLe x b = true := by
  induction l generalizing b rest with
  | nil => simp [popMax] at h
  | cons x xs ih =>
    simp only [popMax] at h
    split at h
    · rename_i hnone
      simp only [Option.some.injEq, Prod.mk.injEq] at h
      obtain ⟨_, hr⟩ := h
      subst hr
      intro y hy
      simp at hy
    · rename_i m r hsome
      have hmax := ih hsome
      split at h
      · rename_i hle
        simp only [Option.some.injEq, Prod.mk.injEq] at h
        obtain ⟨hb, hr⟩ := h
        subst hb; subst hr
        intro y hy
        rcases List.mem_cons.1 hy with hyx | hyr
        · subst hyx; exact hle
        · exact hmax y hyr
      · rename_i hle
        simp only [Option.some.injEq, Prod.mk.injEq] at h
        obtain ⟨hb, hr⟩ := h
        subst hb; subst hr
        intro y hy
        have hmx : wiLe m x = true := by
          rcases wiLe_total x m with hxm | hmx
          · exact absurd hxm hle
          · exact hmx
        rcases List.mem_cons.1 hy with hym | hyr
        · subst hym; exact hmx
        · exact wiLe_trans (hmax y hyr) hmx

/-! ## Shape-preservation lemmas for the allocation loop -/

theorem allocStep_sizes_length (T : Int) (b : WeightItem) (rest : List WeightItem)
    (sizes : List Int) (a : Int) :
    (allocStep T b rest sizes a).sizes.length = sizes.length := by
  unfold allocStep
  split <;> simp [List.length_set]

theorem allocStep_heap_ne_nil (T : Int) (b : WeightItem) (rest : List WeightItem)
    (sizes : List Int) (a : Int) :
    (allocStep T b rest sizes a).heap ≠ [] := by
  unfold allocStep
  split <;> simp

theorem allocRun_some_sizes_length (T : Int) :
    ∀ (fuel : Nat) (st st' : AllocState), allocRun T fuel st = some st' →
      st'.sizes.length = st.sizes.length := by
  intro fuel
  induction fuel with
  | zero =>
    intro st st' h
    simp only [allocRun, Option.some.injEq] at h
    subst h; rfl
  | succ n ih =>
    intro st st' h
    simp only [allocRun] at h
    split at h
    · cases hp : popMax st.heap with
      | none => rw [hp] at h; simp at h
      | some p =>
        obtain ⟨b, rest⟩ := p
        rw [hp] at h
        have := ih _ _ h
        rw [this, allocStep_sizes_length]
    · simp only [Option.some.injEq] at h
      subst h; rfl

theorem allocRun_isSome_of_ne_nil (T : Int) :
    ∀ (fuel : Nat) (st : AllocState), st.heap ≠ [] →
      ∃ st', allocRun T fuel st = some st' := by
  intro fuel
  induction fuel with
  | zero => intro st _; exact ⟨st, rfl⟩
  | succ n ih =>
    intro st hne
    simp only [allocRun]
    split
    · cases hp : popMax st.heap with
      | none => exact absurd ((popMax_eq_none_iff st.heap).1 hp) hne
      | some p =>
        obtain ⟨b, rest⟩ := p
        exact ih _ (allocStep_heap_ne_nil T b rest st.sizes st.allocate)
    · exact ⟨st, rfl⟩

theorem accBounds_length : ∀ (start : Nat) (sizes : List Int),
    (accBounds start sizes).length = sizes.length + 1 := by
  intro start sizes
  induction sizes generalizing start with
  | nil => rfl
  | cons s rest ih => simp [accBounds, ih]

theorem initHeap_length (dims : List GridDimension) (a T : Int) :
    (initHeap dims a T).length = dims.length := by
  simp [initHeap, List.enum_length]

theorem initSizes_length (dims : List GridDimension) :
    (initSizes dims).length = dims.length := by
  simp [initSizes]

/-- C3 (amended): for every non-empty dimension list the boundary list of
`layout_grid_dim` has length `count + 1`, and for the empty list this also
holds whenever the available length is at most 1 (so that no extra space is
left to distribute). The unamended claim fails for the empty list with
length ≥ 2: the empty heap triggers the early `return`, leaving the cleared
(empty) boundary list — see the counterexample. -/
theorem C3_boundary_count (dims : List GridDimension) (start length : Nat) :
    (dims ≠ [] → (layout_grid_dim dims start length).length = dims.length + 1) ∧
    (dims = [] → length ≤ 1 → (layout_grid_dim dims start length).length = dims.length + 1) := by
  constructor
  · intro hne
    have hheap : (initState dims length).heap ≠ [] := by
      simp only [initState]
      intro hcon
      have := initHeap_length dims (initAllocate dims length) (totalWeight dims)
      rw [hcon] at this
      simp at this
      exact hne (List.length_eq_zero.1 this.symm)
    obtain ⟨st', hrun⟩ := allocRun_isSome_of_ne_nil (totalWeight dims)
      (initAllocate dims length).toNat (initState dims length) hheap
    have hlen := allocRun_some_sizes_length _ _ _ _ hrun
    simp only [layout_grid_dim, allocFinal]
    rw [hrun]
    simp [accBounds_length, hlen, initState, initSizes_length]
  · intro hdims hlen
    subst hdims
    have hneg : (initAllocate [] length).toNat = 0 := by
      simp only [initAllocate, initSizes, List.map_nil, List.sum_nil]
      omega
    simp [layout_grid_dim, allocFinal, hneg, allocRun, initState, initSizes, accBounds]

/-- Witness for `C3_boundary_count` at a concrete input. -/
theorem C3_boundary_count_witness :
    (layout_grid_dim [⟨0, 1⟩] 0 5).length = [(⟨0, 1⟩ : GridDimension)].length + 1 :=
  (C3_boundary_count [⟨0, 1⟩] 0 5).1 (by decide)

/-- C3 counterexample: for the empty dimension list and available length 2
the boundary list is empty, not of length `0 + 1`: the `while` loop starts
with `allocate = 1 > 0`, pops the empty heap and takes the early `return`
with the target vector still cleared. -/
theorem C3_counterexample :
    ¬ ((layout_grid_dim [] 0 2).length = ([] : List GridDimension).length + 1) := by
  decide

/-- C4 (code bug): `add_widget` leaves the dirty bit clear, so a render
after adding a widget with an unchanged region reuses the stale cache. In
the 2×2 demo: after one render the state is clean; `add_widget` of a span
covering the central intersection leaves `dirty_bit = false`, the next
render with the same region returns the state unchanged (no recompute),
and the cached grid still shows the central point visible even though a
fresh `compute_layout` on the same configuration occludes it. -/
theorem C4_add_widget_stale_cache :
    cacheDemoAfterAdd.dirty_bit = false ∧
    render_state cacheDemoAfterAdd ⟨0, 0, 9, 9⟩ = cacheDemoAfterAdd ∧
    get2d (render_state cacheDemoAfterAdd ⟨0, 0, 9, 9⟩).grid_points 1 1 = true ∧
    get2d (compute_layout cacheDemoAfterAdd ⟨0, 0, 9, 9⟩).grid_points 1 1 = false := by
  decide

/-- C8 (code bug): with an empty row list, a non-empty column list and a
5×5 region, `layout_grid_dim` leaves `edge_layout_x` empty (early return),
and `draw_edges` then evaluates `edge_layout_x.len() - 1`, which underflows
(debug panic; in release the wrapped value drives an out-of-bounds index
into the empty `grid_points`). The guarded render model returns `none`. -/
theorem C8_degenerate_render_panics :
    renderChecked emptyRowsState ⟨0, 0, 5, 5⟩ = none := by
  decide

/-- C7 counterexample: in the documented scenario the column boundary list
has three coordinates (two columns produce `count + 1 = 3` boundaries), not
four as the claim states. -/
theorem C7_counterexample :
    scenarioState.edge_layout_y.length = 3 ∧
    ¬ (scenarioState.edge_layout_y.length = 4) := by
  decide

/-- C7 (amended): in the scenario the column boundaries are `[0, 13, 19]` —
three distinct, strictly increasing coordinates with the last equal to
`start + width - 1`; both columns receive at least their minimum content
(12 ≥ 0 and 5 ≥ 2), and the extra 15 units split `[12, 3]`, within one unit
of the ideal 3:1 shares (11.25 and 3.75). (The source lays the column axis
out along the region's height; on this square 20×20 region the width-based
reading of the scenario gives the same numbers.) -/
theorem C7_scenario :
    scenarioState.edge_layout_y = [0, 13, 19] ∧
    scenarioState.edge_layout_y.getD 0 20 < scenarioState.edge_layout_y.getD 1 0 ∧
    scenarioState.edge_layout_y.getD 1 0 < scenarioState.edge_layout_y.getD 2 0 ∧
    scenarioState.edge_layout_y.getD 2 0 = 0 + 20 - 1 ∧
    scenarioState.edge_layout_y.getD 1 0 - scenarioState.edge_layout_y.getD 0 0 - 1 ≥ 0 ∧
    scenarioState.edge_layout_y.getD 2 0 - scenarioState.edge_layout_y.getD 1 0 - 1 ≥ 2 ∧
    allocatedExtras scenarioColumns 20 = [12, 3] ∧
    |totalWeight scenarioColumns * 12 - initAllocate scenarioColumns 20 * 3| <
      totalWeight scenarioColumns ∧
    |totalWeight scenarioColumns * 3 - initAllocate scenarioColumns 20 * 1| <
      totalWeight scenarioColumns := by
  decide

/-! ## Integer-division helper lemmas -/

theorem mul_ediv_le_self (a : Int) {T : Int} (hT : 0 < T) : T * (a / T) ≤ a := by
  have h := Int.emod_nonneg a (ne_of_gt hT)
  have hd := Int.emod_def a T
  omega

theorem one_le_ediv {w T : Int} (hT : 1 ≤ T) (h : T ≤ w) : 1 ≤ w / T := by
  have h1 : T / T ≤ w / T := Int.ediv_le_ediv (by omega) h
  rwa [Int.ediv_self (by omega)] at h1

theorem ediv_sum_le {T : Int} (hT : 0 < T) : ∀ (l : List Int),
    (l.map (· / T)).sum ≤ l.sum / T := by
  intro l
  induction l with
  | nil => simp
  | cons a as ih =>
    simp only [List.map_cons, List.sum_cons]
    have h2 : a / T + as.sum / T ≤ (a + as.sum) / T := by
      rw [Int.le_ediv_iff_mul_le hT]
      have ha := mul_ediv_le_self a hT
      have hb := mul_ediv_le_self as.sum hT
      calc (a / T + as.sum / T) * T = T * (a / T) + T * (as.sum / T) := by ring
        _ ≤ a + as.sum := by linarith
    have h1 : a / T + (as.map (· / T)).sum ≤ a / T + as.sum / T := by linarith
    exact le_trans h1 h2

theorem list_sum_nonneg (l : List Int) (h : ∀ x ∈ l, 0 ≤ x) : 0 ≤ l.sum := by
  induction l with
  | nil => simp
  | cons a as ih =>
    simp only [List.sum_cons]
    have := h a (List.mem_cons_self a as)
    have := ih fun x hx => h x (List.mem_cons_of_mem a hx)
    omega

theorem list_sum_zero_of_nonneg {l : List Int} (h : ∀ x ∈ l, 0 ≤ x) (hs : l.sum = 0) :
    ∀ x ∈ l, x = 0 := by
  induction l with
  | nil => simp
  | cons a as ih =>
    simp only [List.sum_cons] at hs
    have ha := h a (List.mem_cons_self a as)
    have has : 0 ≤ as.sum := list_sum_nonneg as fun x hx => h x (List.mem_cons_of_mem a hx)
    intro x hx
    rcases List.mem_cons.1 hx with rfl | hx2
    · omega
    · exact ih (fun y hy => h y (List.mem_cons_of_mem a hy)) (by omega) x hx2

theorem list_single_le_sum {l : List Int} (h : ∀ x ∈ l, 0 ≤ x) {a : Int} (ha : a ∈ l) :
    a ≤ l.sum := by
  induction l with
  | nil => simp at ha
  | cons b bs ih =>
    simp only [List.sum_cons]
    have hbs : 0 ≤ bs.sum := list_sum_nonneg bs fun x hx => h x (List.mem_cons_of_mem b hx)
    rcases List.mem_cons.1 ha with rfl | ha2
    · omega
    · have := ih (fun y hy => h y (List.mem_cons_of_mem b hy)) ha2
      have hb := h b (List.mem_cons_self b bs)
      omega

theorem sum_map_mul_const (l : List Int) (c : Int) : (l.map (· * c)).sum = l.sum * c := by
  induction l with
  | nil => simp
  | cons a as ih =>
    simp only [List.map_cons, List.sum_cons, ih]
    ring

/-! ## Lemmas about the potential `phi` -/

theorem phi_nonneg {T : Int} (hT : 0 < T) (l : List WeightItem) : 0 ≤ phi T l := by
  unfold phi
  apply list_sum_nonneg
  intro x hx
  obtain ⟨it, hit, rfl⟩ := List.mem_map.1 hx
  exact Int.ediv_nonneg (le_max_right _ _) (le_of_lt hT)

theorem phi_perm {T : Int} {l1 l2 : List WeightItem} (h : l1.Perm l2) :
    phi T l1 = phi T l2 :=
  (h.map _).sum_eq

theorem phi_cons (T : Int) (x : WeightItem) (l : List WeightItem) :
    phi T (x :: l) = max x.weight 0 / T + phi T l := by
  simp [phi]

theorem phi_append_single (T : Int) (l : List WeightItem) (x : WeightItem) :
    phi T (l ++ [x]) = phi T l + max x.weight 0 / T := by
  simp [phi]

theorem max_ediv_zero_of_lt {x T : Int} (hT : 0 < T) (h : x < T) : max x 0 / T = 0 :=
  Int.ediv_eq_zero_of_lt (le_max_right x 0) (by omega)

/-! ## The general loop invariant (C1) -/

theorem invGen_step {T : Int} {st : AllocState} (hInv : InvGen T st)
    (hpos : 0 < st.allocate) {b : WeightItem} {rest : List WeightItem}
    (hpop : popMax st.heap = some (b, rest)) :
    InvGen T (allocStep T b rest st.sizes st.allocate) ∧
    (allocStep T b rest st.sizes st.allocate).allocate < st.allocate ∧
    (allocStep T b rest st.sizes st.allocate).sizes.sum
      + (allocStep T b rest st.sizes st.allocate).allocate
      = st.sizes.sum + st.allocate := by
  have hperm := popMax_perm hpop
  have hmaxr := popMax_is_max hpop
  have hbmem : b ∈ st.heap := hperm.symm.subset (List.mem_cons_self b rest)
  have hrestmem : ∀ x ∈ rest, x ∈ st.heap := fun x hx =>
    hperm.symm.subset (List.mem_cons_of_mem b hx)
  have hbidx : b.index < st.sizes.length := hInv.idx_lt b hbmem
  unfold allocStep
  by_cases hdiv : T < b.weight
  · rw [if_pos hdiv]
    have hT1 : 1 ≤ T := by
      rcases lt_or_eq_of_le hInv.t_nonneg with h0 | h0
      · omega
      · exfalso
        have := hInv.tz h0.symm b hbmem
        omega
    have hphi : phi T st.heap = b.weight / T + phi T rest := by
      rw [phi_perm hperm, phi_cons]
      congr 2
      omega
    have hphile := hInv.phi_le hT1
    have hrest_nonneg : 0 ≤ phi T rest := phi_nonneg (by omega) rest
    have hamount1 : 1 ≤ b.weight / T := one_le_ediv hT1 (le_of_lt hdiv)
    have hamountle : b.weight / T ≤ st.allocate := by omega
    refine ⟨⟨hInv.t_nonneg, ?_, ?_, ?_, ?_⟩, ?_, ?_⟩
    · simp only
      omega
    · intro it hit
      rw [List.length_set]
      rcases List.mem_append.1 hit with hit1 | hit2
      · exact hInv.idx_lt it (hrestmem it hit1)
      · simp only [List.mem_singleton] at hit2
        subst hit2
        exact hbidx
    · intro h0
      exfalso
      omega
    · intro _
      simp only
      rw [phi_append_single]
      have hmod0 : b.weight - T * (b.weight / T) = b.weight % T := by
        rw [Int.emod_def]
      have hmodlt : b.weight % T < T := Int.emod_lt_of_pos b.weight (by omega)
      have hmodnn : 0 ≤ b.weight % T := Int.emod_nonneg b.weight (by omega)
      rw [hmod0, max_ediv_zero_of_lt (by omega) hmodlt]
      omega
    · simp only
      omega
    · simp only
      rw [sum_set_add st.sizes b.index (b.weight / T) hbidx]
      ring
  · rw [if_neg hdiv]
    have hwle : b.weight ≤ T := le_of_not_lt hdiv
    refine ⟨⟨hInv.t_nonneg, ?_, ?_, ?_, ?_⟩, ?_, ?_⟩
    · simp only
      omega
    · intro it hit
      rw [List.length_set]
      rcases List.mem_append.1 hit with hit1 | hit2
      · exact hInv.idx_lt it (hrestmem it hit1)
      · simp only [List.mem_singleton] at hit2
        subst hit2
        exact hbidx
    · intro h0
      intro it hit
      rcases List.mem_append.1 hit with hit1 | hit2
      · exact hInv.tz h0 it (hrestmem it hit1)
      · simp only [List.mem_singleton] at hit2
        subst hit2
        have := hInv.tz h0 b hbmem
        simp only
        omega
    · intro hT1
      simp only
      rw [phi_append_single]
      have hbterm : max (b.weight - T) 0 / T = 0 :=
        max_ediv_zero_of_lt (by omega) (by omega)
      rw [hbterm]
      have hphile := hInv.phi_le hT1
      rw [phi_perm hperm, phi_cons] at hphile
      by_cases hbw : b.weight = T
      · have : max b.weight 0 / T = 1 := by
          rw [hbw]
          have : max T 0 = T := by omega
          rw [this, Int.ediv_self (by omega)]
        rw [this] at hphile
        omega
      · have hblt : b.weight < T := by omega
        have hrest0 : phi T rest = 0 := by
          unfold phi
          apply List.sum_eq_zero
          intro x hx
          obtain ⟨it, hit, rfl⟩ := List.mem_map.1 hx
          have := wiLe_weight_le (hmaxr it hit)
          exact max_ediv_zero_of_lt (by omega) (by omega)
        rw [hrest0]
        have hrb : 0 ≤ max b.weight 0 / T := Int.ediv_nonneg (le_max_right _ _) (by omega)
        omega
    · simp only
      omega
    · simp only
      rw [sum_set_add st.sizes b.index 1 hbidx]
      ring

theorem invGen_run (T : Int) : ∀ (fuel : Nat) (st : AllocState), InvGen T st →
    st.heap ≠ [] → st.allocate ≤ (fuel : Int) →
    ∃ st', allocRun T fuel st = some st' ∧ st'.allocate = 0 ∧
      st'.sizes.sum = st.sizes.sum + st.allocate ∧
      st'.sizes.length = st.sizes.length := by
  intro fuel
  induction fuel with
  | zero =>
    intro st hInv hne hfuel
    have h0 : st.allocate = 0 := by
      have := hInv.alloc_nonneg
      simp only [Nat.cast_zero] at hfuel
      omega
    exact ⟨st, rfl, h0, by omega, rfl⟩
  | succ n ih =>
    intro st hInv hne hfuel
    by_cases hpos : 0 < st.allocate
    · obtain ⟨⟨b, rest⟩, hpop⟩ : ∃ p, popMax st.heap = some p := by
        cases hp : popMax st.heap with
        | none => exact absurd ((popMax_eq_none_iff _).1 hp) hne
        | some p => exact ⟨p, rfl⟩
      obtain ⟨hInv2, hdec, hsum⟩ := invGen_step hInv hpos hpop
      have hne2 : (allocStep T b rest st.sizes st.allocate).heap ≠ [] :=
        allocStep_heap_ne_nil T b rest st.sizes st.allocate
      have hfuel2 : (allocStep T b rest st.sizes st.allocate).allocate ≤ (n : Int) := by
        push_cast at hfuel ⊢
        omega
      obtain ⟨st', hrun, hz, hs, hl⟩ := ih _ hInv2 hne2 hfuel2
      refine ⟨st', ?_, hz, ?_, ?_⟩
      · simp only [allocRun, if_pos hpos]
        rw [hpop]
        exact hrun
      · rw [hs]
        omega
      · rw [hl, allocStep_sizes_length]
    · refine ⟨st, ?_, ?_, ?_, rfl⟩
      · simp only [allocRun, if_neg hpos]
      · have := hInv.alloc_nonneg
        omega
      · have := hInv.alloc_nonneg
        omega

theorem enumFrom_mem_facts {α : Type} : ∀ (l : List α) (n : Nat) (p : Nat × α),
    p ∈ List.enumFrom n l → n ≤ p.1 ∧ p.1 < n + l.length ∧ p.2 ∈ l := by
  intro l
  induction l with
  | nil => intro n p hp; simp [List.enumFrom] at hp
  | cons a as ih =>
    intro n p hp
    simp only [List.enumFrom, List.mem_cons] at hp
    rcases hp with rfl | hp
    · refine ⟨le_refl n, by simp only [List.length_cons]; omega, List.mem_cons_self a as⟩
    · obtain ⟨h1, h2, h3⟩ := ih (n + 1) p hp
      exact ⟨by omega, by simp only [List.length_cons]; omega, List.mem_cons_of_mem a h3⟩

theorem enum_mem_facts {α : Type} (l : List α) (p : Nat × α) (hp : p ∈ l.enum) :
    p.1 < l.length ∧ p.2 ∈ l := by
  have h : p ∈ List.enumFrom 0 l := hp
  obtain ⟨_, h2, h3⟩ := enumFrom_mem_facts l 0 p h
  exact ⟨by omega, h3⟩

theorem totalWeight_nonneg (dims : List GridDimension) : 0 ≤ totalWeight dims := by
  apply list_sum_nonneg
  intro x hx
  obtain ⟨d, _, rfl⟩ := List.mem_map.1 hx
  exact Int.natCast_nonneg _

theorem invGen_init (dims : List GridDimension) (length : Nat)
    (ha : 0 ≤ initAllocate dims length) :
    InvGen (totalWeight dims) (initState dims length) := by
  have hT0 := totalWeight_nonneg dims
  refine ⟨hT0, ha, ?_, ?_, ?_⟩
  · intro it hit
    simp only [initState, initHeap] at hit
    obtain ⟨p, hp, rfl⟩ := List.mem_map.1 hit
    have := (enum_mem_facts dims p hp).1
    simp only [initState, initSizes_length]
    exact this
  · intro h0 it hit
    have hall : ∀ d ∈ dims, (d.weight : Int) = 0 := by
      intro d hd
      exact list_sum_zero_of_nonneg
        (fun x hx => by
          obtain ⟨e, _, rfl⟩ := List.mem_map.1 hx
          exact Int.natCast_nonneg _)
        h0 _ (List.mem_map_of_mem _ hd)
    simp only [initState, initHeap] at hit
    obtain ⟨p, hp, rfl⟩ := List.mem_map.1 hit
    have hd := (enum_mem_facts dims p hp).2
    simp only
    rw [hall p.2 hd, h0]
    simp
  · intro hT1
    simp only [initState, initHeap, phi]
    rw [List.map_map]
    set A := initAllocate dims length with hAdef
    set T := totalWeight dims with hTdef
    have hstep1 :
        (dims.enum.map fun p =>
            max ((p.2.weight : Int) * A - T * (p.2.min : Int)) 0 / T).sum ≤
        (dims.enum.map fun p => (p.2.weight : Int) * A / T).sum := by
      apply List.sum_le_sum
      intro p hp
      apply Int.ediv_le_ediv (by omega)
      have hwa : 0 ≤ (p.2.weight : Int) * A := mul_nonneg (Int.natCast_nonneg _) ha
      have htm : 0 ≤ T * (p.2.min : Int) := mul_nonneg (by omega) (Int.natCast_nonneg _)
      omega
    have hmapeq : (dims.enum.map fun p => (p.2.weight : Int) * A) =
        dims.map fun d => (d.weight : Int) * A := by
      have h1 : (dims.enum.map fun p => (p.2.weight : Int) * A) =
          (dims.enum.map Prod.snd).map fun d => (d.weight : Int) * A := by
        rw [List.map_map]
        rfl
      rw [h1, List.enum_map_snd]
    have hstep2 : (dims.enum.map fun p => (p.2.weight : Int) * A / T).sum ≤
        (dims.enum.map fun p => (p.2.weight : Int) * A).sum / T := by
      have h1 : (dims.enum.map fun p => (p.2.weight : Int) * A / T) =
          ((dims.enum.map fun p => (p.2.weight : Int) * A).map (· / T)) := by
        rw [List.map_map]
        rfl
      rw [h1]
      exact ediv_sum_le (by omega) _
    have hsumw : (dims.map fun d => (d.weight : Int) * A).sum = T * A := by
      have h1 : (dims.map fun d => (d.weight : Int) * A) =
          ((dims.map fun d => (d.weight : Int)).map (· * A)) := by
        rw [List.map_map]
        rfl
      rw [h1, sum_map_mul_const, hTdef]
      unfold totalWeight
      ring
    have hfinal : (dims.enum.map fun p => (p.2.weight : Int) * A).sum / T = A := by
      rw [hmapeq, hsumw, Int.mul_ediv_cancel_left A (by omega)]
    calc (dims.enum.map fun p =>
            max ((p.2.weight : Int) * A - T * (p.2.min : Int)) 0 / T).sum
        ≤ (dims.enum.map fun p => (p.2.weight : Int) * A / T).sum := hstep1
      _ ≤ (dims.enum.map fun p => (p.2.weight : Int) * A).sum / T := hstep2
      _ = A := hfinal

theorem initState_heap_ne_nil {dims : List GridDimension} (hne : dims ≠ []) (length : Nat) :
    (initState dims length).heap ≠ [] := by
  simp only [initState]
  intro hcon
  have h1 := initHeap_length dims (initAllocate dims length) (totalWeight dims)
  rw [hcon] at h1
  simp at h1
  exact hne (List.length_eq_zero.1 h1.symm)

theorem initSizes_sum (dims : List GridDimension) :
    (initSizes dims).sum = (dims.length : Int) + (dims.map fun d => (d.min : Int)).sum := by
  induction dims with
  | nil => simp [initSizes]
  | cons d ds ih =>
    simp only [initSizes, List.map_cons, List.sum_cons, List.length_cons] at *
    push_cast
    rw [ih]
    ring

/-- C1 (amended): for every **non-empty** dimension list and every available
length at least the sum of minimums plus borders (one leading border unit
per dimension plus one trailing unit), the extra units distributed by the
allocation loop sum exactly to `length - taken`. The unamended claim also
admits the empty dimension list, for which the early `return` distributes
nothing while `length - taken` is positive — see the counterexample. -/
theorem C1_allocation_conservation (dims : List GridDimension) (length : Nat)
    (hne : dims ≠ [])
    (hlen : (dims.map fun d => (d.min : Int)).sum + dims.length + 1 ≤ (length : Int)) :
    (allocatedExtras dims length).sum
      = (length : Int) - ((dims.map fun d => (d.min : Int)).sum + dims.length + 1) := by
  have hA : initAllocate dims length
      = (length : Int) - ((dims.map fun d => (d.min : Int)).sum + dims.length + 1) := by
    unfold initAllocate
    rw [initSizes_sum]
    ring
  have ha : 0 ≤ initAllocate dims length := by rw [hA]; omega
  have hInv := invGen_init dims length ha
  have hne2 := initState_heap_ne_nil hne length
  have hfuel : (initState dims length).allocate ≤ ((initAllocate dims length).toNat : Int) := by
    simp only [initState]
    exact Int.self_le_toNat _
  obtain ⟨st', hrun, _, hs, hl⟩ :=
    invGen_run (totalWeight dims) (initAllocate dims length).toNat (initState dims length)
      hInv hne2 hfuel
  unfold allocatedExtras allocFinal
  rw [hrun]
  have hlen2 : st'.sizes.length = (initSizes dims).length := by
    rw [hl]
    rfl
  rw [zipWith_sub_sum _ _ hlen2, hs]
  simp only [initState]
  rw [hA]
  ring

/-- Witness for `C1_allocation_conservation` at a concrete input. -/
theorem C1_allocation_conservation_witness :
    (allocatedExtras [⟨1, 2⟩, ⟨0, 1⟩] 10).sum
      = (10 : Int) - ((([⟨1, 2⟩, ⟨0, 1⟩] : List GridDimension).map fun d => (d.min : Int)).sum
        + ([⟨1, 2⟩, ⟨0, 1⟩] : List GridDimension).length + 1) :=
  C1_allocation_conservation [⟨1, 2⟩, ⟨0, 1⟩] 10 (by decide) (by decide)

/-- C1 counterexample: for the empty dimension list and available length 3
(which is at least the reserved total of 1), the loop's early `return`
distributes nothing, yet `length - taken = 2`. -/
theorem C1_counterexample :
    ¬ ((allocatedExtras ([] : List GridDimension) 3).sum
      = (3 : Int) - ((([] : List GridDimension).map fun d => (d.min : Int)).sum
        + ([] : List GridDimension).length + 1)) := by
  decide

/-! ## Zero-weight runs (C10) -/

theorem set_getD_self (l : List Int) (i : Nat) : l.set i (l.getD i 0) = l := by
  induction l generalizing i with
  | nil => simp
  | cons a as ih =>
    cases i with
    | zero => simp [List.getD]
    | succ n =>
      show a :: as.set n ((a :: as).getD (n + 1) 0) = a :: as
      rw [List.getD_cons_succ, ih]

theorem allocRunNoDiv_imp_allocRun (T : Int) : ∀ (fuel : Nat) (st st' : AllocState),
    allocRunNoDiv T fuel st = some st' → allocRun T fuel st = some st' := by
  intro fuel
  induction fuel with
  | zero => intro st st' h; exact h
  | succ n ih =>
    intro st st' h
    simp only [allocRunNoDiv] at h
    simp only [allocRun]
    by_cases hpos : 0 < st.allocate
    · rw [if_pos hpos] at h ⊢
      cases hp : popMax st.heap with
      | none => rw [hp] at h; exact absurd h (by simp)
      | some p =>
        obtain ⟨b, rest⟩ := p
        simp only [hp] at h ⊢
        by_cases hdiv : T < b.weight
        · rw [if_pos hdiv] at h
          exact absurd h (by simp)
        · rw [if_neg hdiv] at h
          exact ih _ _ h
    · rw [if_neg hpos] at h ⊢
      exact h

theorem popMax_zero_range : ∀ (n s : Nat), 0 < n →
    popMax ((List.range' s n).map fun i => (⟨0, i⟩ : WeightItem))
      = some (⟨0, s + n - 1⟩, (List.range' s (n - 1)).map fun i => ⟨0, i⟩) := by
  intro n
  induction n with
  | zero => intro s h; omega
  | succ m ih =>
    intro s _
    by_cases hm : m = 0
    · subst hm
      show popMax ((List.range' s 1).map fun i => (⟨0, i⟩ : WeightItem)) = _
      have h1 : List.range' s 1 = [s] := rfl
      have h2 : s + 1 - 1 = s := by omega
      rw [h1, h2]
      rfl
    · have hms : 0 < m := Nat.pos_of_ne_zero hm
      have hrs : List.range' s (m + 1) = s :: List.range' (s + 1) m := rfl
      rw [hrs]
      simp only [List.map_cons, popMax, ih (s + 1) hms]
      have hle : wiLe ⟨0, s⟩ ⟨0, s + 1 + m - 1⟩ = true := by
        have hs : s ≤ s + 1 + m - 1 := by omega
        simp [wiLe, hs]
      rw [if_pos hle]
      have h1 : s + 1 + m - 1 = s + (m + 1) - 1 := by omega
      have h2 : List.range' s (m + 1 - 1) = s :: List.range' (s + 1) (m - 1) := by
        have hm1 : m + 1 - 1 = (m - 1) + 1 := by omega
        rw [hm1]
        rfl
      rw [h1, h2]
      simp

theorem allocRunNoDiv_succ_pop {T : Int} {fuel : Nat} {st : AllocState} {b : WeightItem}
    {rest : List WeightItem} (hpos : 0 < st.allocate)
    (hpop : popMax st.heap = some (b, rest)) (hng : ¬ T < b.weight) :
    allocRunNoDiv T (fuel + 1) st
      = allocRunNoDiv T fuel (allocStep T b rest st.sizes st.allocate) := by
  simp only [allocRunNoDiv, if_pos hpos, hpop]
  rw [if_neg hng]

theorem allocRunNoDiv_zero_weights : ∀ (k : Nat) (sizes : List Int) (n : Nat),
    0 < n → n - 1 < sizes.length →
    allocRunNoDiv 0 k ⟨sizes, (k : Int), (List.range' 0 n).map fun i => ⟨0, i⟩⟩
      = some ⟨sizes.set (n - 1) (sizes.getD (n - 1) 0 + k), 0,
          (List.range' 0 n).map fun i => ⟨0, i⟩⟩ := by
  intro k
  induction k with
  | zero =>
    intro sizes n hn hlen
    simp only [allocRunNoDiv, Nat.cast_zero]
    rw [add_zero, set_getD_self]
  | succ m ih =>
    intro sizes n hn hlen
    have hpos : (0 : Int) < (((m + 1 : Nat)) : Int) := by push_cast; omega
    have hpop : popMax ((List.range' 0 n).map fun i => (⟨0, i⟩ : WeightItem))
        = some (⟨0, n - 1⟩, (List.range' 0 (n - 1)).map fun i => ⟨0, i⟩) := by
      have h := popMax_zero_range n 0 hn
      simpa using h
    have hng : ¬ ((0 : Int) < (⟨0, n - 1⟩ : WeightItem).weight) := by simp
    rw [allocRunNoDiv_succ_pop hpos hpop hng]
    simp only [allocStep]
    rw [if_neg hng]
    have hheap : ((List.range' 0 (n - 1)).map fun i => (⟨0, i⟩ : WeightItem))
        ++ [⟨(⟨0, n - 1⟩ : WeightItem).weight - 0, n - 1⟩]
        = (List.range' 0 n).map fun i => ⟨0, i⟩ := by
      have h3 : [(⟨(⟨0, n - 1⟩ : WeightItem).weight - 0, n - 1⟩ : WeightItem)]
          = List.map (fun i => (⟨0, i⟩ : WeightItem)) [n - 1] := by
        simp
      rw [h3, ← List.map_append]
      congr 1
      have h2 : n = (n - 1) + 1 := by omega
      conv_rhs => rw [h2]
      rw [List.range'_concat]
      simp
    have harith : (((m + 1 : Nat)) : Int) - 1 = ((m : Nat) : Int) := by push_cast; ring
    rw [hheap, harith]
    rw [ih (sizes.set (n - 1) (sizes.getD (n - 1) 0 + 1)) n hn
      (by rw [List.length_set]; exact hlen)]
    rw [getD_set_self _ _ _ _ hlen, List.set_set]
    have hval : sizes.getD (n - 1) 0 + 1 + (m : Int)
        = sizes.getD (n - 1) 0 + (((m + 1 : Nat)) : Int) := by
      push_cast
      ring
    rw [hval]

theorem totalWeight_eq_zero {dims : List GridDimension} (hw : ∀ d ∈ dims, d.weight = 0) :
    totalWeight dims = 0 := by
  unfold totalWeight
  apply List.sum_eq_zero
  intro x hx
  obtain ⟨d, hd, rfl⟩ := List.mem_map.1 hx
  rw [hw d hd]
  rfl

theorem initHeap_zero_weights {dims : List GridDimension} (hw : ∀ d ∈ dims, d.weight = 0)
    (a : Int) :
    initHeap dims a 0 = (List.range' 0 dims.length).map fun i => ⟨0, i⟩ := by
  unfold initHeap
  have h1 : dims.enum.map (fun p => (⟨(p.2.weight : Int) * a - 0 * (p.2.min : Int), p.1⟩
      : WeightItem)) = dims.enum.map fun p => ⟨0, p.1⟩ := by
    apply List.map_congr_left
    intro p hp
    have hd := (enum_mem_facts dims p hp).2
    rw [hw p.2 hd]
    simp
  rw [h1]
  have h2 : dims.enum.map (fun p => (⟨0, p.1⟩ : WeightItem))
      = (dims.enum.map Prod.fst).map fun i => ⟨0, i⟩ := by
    rw [List.map_map]
    rfl
  rw [h2, List.enum_map_fst, List.range_eq_range']

/-- C10: for a non-empty dimension list whose weights are all zero and an
available length strictly exceeding the reserved minimum-plus-border total,
the run never enters the division branch (the division-poisoned variant
`allocRunNoDiv` completes and agrees with the real loop, so no division —
in particular no division by zero — is executed; every token starts at `0`
and only ever decreases by `total_weight = 0`), and every remaining extra
unit goes to the dimension with the highest index via the max-heap
tie-break on index. -/
theorem C10_zero_weight_allocation (dims : List GridDimension) (length : Nat)
    (hne : dims ≠ []) (hw : ∀ d ∈ dims, d.weight = 0)
    (hpos : 0 < initAllocate dims length) :
    allocRunNoDiv (totalWeight dims) (initAllocate dims length).toNat (initState dims length)
      = allocFinal dims length ∧
    allocFinal dims length = some
      { sizes := (initSizes dims).set (dims.length - 1)
          ((initSizes dims).getD (dims.length - 1) 0 + initAllocate dims length)
        allocate := 0
        heap := initHeap dims (initAllocate dims length) (totalWeight dims) } := by
  have hT := totalWeight_eq_zero hw
  have hn : 0 < dims.length := List.length_pos.2 hne
  have hlen1 : dims.length - 1 < (initSizes dims).length := by
    rw [initSizes_length]
    omega
  have hcast : ((initAllocate dims length).toNat : Int) = initAllocate dims length :=
    Int.toNat_of_nonneg (le_of_lt hpos)
  have hstate : initState dims length
      = ⟨initSizes dims, (((initAllocate dims length).toNat : Nat) : Int),
          (List.range' 0 dims.length).map fun i => ⟨0, i⟩⟩ := by
    simp only [initState, hcast, hT]
    rw [initHeap_zero_weights hw]
  have hrun := allocRunNoDiv_zero_weights (initAllocate dims length).toNat
    (initSizes dims) dims.length hn hlen1
  have hnodiv : allocRunNoDiv (totalWeight dims) (initAllocate dims length).toNat
      (initState dims length) = some
        ⟨(initSizes dims).set (dims.length - 1)
            ((initSizes dims).getD (dims.length - 1) 0 + (initAllocate dims length).toNat),
          0, (List.range' 0 dims.length).map fun i => ⟨0, i⟩⟩ := by
    rw [hT, hstate]
    exact hrun
  have hfinal : allocFinal dims length = some
      ⟨(initSizes dims).set (dims.length - 1)
          ((initSizes dims).getD (dims.length - 1) 0 + (initAllocate dims length).toNat),
        0, (List.range' 0 dims.length).map fun i => ⟨0, i⟩⟩ := by
    unfold allocFinal
    exact allocRunNoDiv_imp_allocRun _ _ _ _ hnodiv
  constructor
  · rw [hnodiv, hfinal]
  · rw [hfinal, hcast, hT, initHeap_zero_weights hw]

/-- Witness for `C10_zero_weight_allocation` at a concrete input. -/
theorem C10_zero_weight_allocation_witness :
    allocRunNoDiv (totalWeight [⟨1, 0⟩, ⟨0, 0⟩]) (initAllocate [⟨1, 0⟩, ⟨0, 0⟩] 7).toNat
        (initState [⟨1, 0⟩, ⟨0, 0⟩] 7)
      = allocFinal [⟨1, 0⟩, ⟨0, 0⟩] 7 ∧
    allocFinal [⟨1, 0⟩, ⟨0, 0⟩] 7 = some
      { sizes := (initSizes [⟨1, 0⟩, ⟨0, 0⟩]).set (([⟨1, 0⟩, ⟨0, 0⟩] : List GridDimension).length - 1)
          ((initSizes [⟨1, 0⟩, ⟨0, 0⟩]).getD (([⟨1, 0⟩, ⟨0, 0⟩] : List GridDimension).length - 1) 0
            + initAllocate [⟨1, 0⟩, ⟨0, 0⟩] 7)
        allocate := 0
        heap := initHeap [⟨1, 0⟩, ⟨0, 0⟩] (initAllocate [⟨1, 0⟩, ⟨0, 0⟩] 7)
          (totalWeight [⟨1, 0⟩, ⟨0, 0⟩]) } :=
  C10_zero_weight_allocation [⟨1, 0⟩, ⟨0, 0⟩] 7 (by decide) (by decide) (by decide)

/-! ## Corner-renderer lemmas (C6) -/

theorem getD_of_get?_some {α : Type} {l : List α} {i : Nat} {v : α} (d : α)
    (h : l.get? i = some v) : l.getD i d = v := by
  induction l generalizing i with
  | nil => simp at h
  | cons a as ih =>
    cases i with
    | zero =>
      have hv : a = v := by
        have h0 : (a :: as).get? 0 = some a := rfl
        rw [h0] at h
        injection h
      subst hv
      rfl
    | succ n =>
      have h0 : (a :: as).get? (n + 1) = as.get? n := rfl
      rw [h0] at h
      rw [List.getD_cons_succ]
      exact ih h

theorem optFor_mem {α : Type} (f : Nat → Option (List α)) : ∀ (n : Nat) (l : List α),
    optFor f n = some l → ∀ x ∈ l, ∃ i, i < n ∧ ∃ li, f i = some li ∧ x ∈ li := by
  intro n
  induction n with
  | zero =>
    intro l h x hx
    simp only [optFor, Option.some.injEq] at h
    subst h
    simp at hx
  | succ m ih =>
    intro l h x hx
    simp only [optFor] at h
    obtain ⟨acc, hacc, h⟩ := Option.bind_eq_some.1 h
    obtain ⟨last, hlast, h⟩ := Option.bind_eq_some.1 h
    simp only [Option.pure_def, Option.some.injEq] at h
    subst h
    rcases List.mem_append.1 hx with hx1 | hx2
    · obtain ⟨i, hi, li, hfi, hxi⟩ := ih acc hacc x hx1
      exact ⟨i, by omega, li, hfi, hxi⟩
    · exact ⟨m, by omega, last, hlast, hx2⟩

theorem cornerAt_mem {ex ey : List Nat} {g : List (List Bool)} {i j : Nat}
    {lj : List ((Nat × Nat) × (Nat × Nat) × String)}
    (h : cornerAt ex ey g i j = some lj) :
    ∀ q pp ss, (q, pp, ss) ∈ lj → q = (i, j) ∧ get2d g i j = true := by
  intro q pp ss hmem
  unfold cornerAt at h
  obtain ⟨row, hrow, h⟩ := Option.bind_eq_some.1 h
  obtain ⟨vis, hvis, h⟩ := Option.bind_eq_some.1 h
  by_cases hv : vis = true
  · rw [hv] at h
    rw [if_neg (by simp)] at h
    obtain ⟨tv, _, h⟩ := Option.bind_eq_some.1 h
    obtain ⟨rv, _, h⟩ := Option.bind_eq_some.1 h
    obtain ⟨lv, _, h⟩ := Option.bind_eq_some.1 h
    obtain ⟨xi, _, h⟩ := Option.bind_eq_some.1 h
    obtain ⟨yj, _, h⟩ := Option.bind_eq_some.1 h
    simp only [Option.pure_def, Option.some.injEq] at h
    subst h
    simp only [List.mem_singleton, Prod.mk.injEq] at hmem
    refine ⟨hmem.1, ?_⟩
    have h1 : g.getD i [] = row := getD_of_get?_some [] hrow
    have h2 : row.getD j true = vis := getD_of_get?_some true hvis
    rw [get2d, h1, h2, hv]
  · have hv2 : vis = false := by
      cases vis
      · rfl
      · exact absurd rfl hv
    rw [hv2] at h
    rw [if_pos (by simp)] at h
    simp only [Option.pure_def, Option.some.injEq] at h
    subst h
    simp at hmem

/-- C6: the 16-entry neighbor-visibility match in `corner_symbol` agrees
with the conventional box-drawing table on every pattern, and every glyph
emitted by `draw_corners` originates from a visible grid point (occluded
intersections get no glyph). -/
theorem C6_corner_glyphs :
    (∀ t r b l, corner_symbol t r b l = conventional_corner_glyph t r b l) ∧
    (∀ (ex ey : List Nat) (g : List (List Bool))
        (ws : List ((Nat × Nat) × (Nat × Nat) × String)) (i j : Nat)
        (pp : Nat × Nat) (ss : String),
      drawCornersChecked ex ey g = some ws → ((i, j), pp, ss) ∈ ws →
      get2d g i j = true) := by
  constructor
  · decide
  · intro ex ey g ws i j pp ss hws hmem
    unfold drawCornersChecked at hws
    obtain ⟨i0, _, li, hfi, hxi⟩ := optFor_mem _ _ _ hws _ hmem
    obtain ⟨j0, _, lj, hfj, hxj⟩ := optFor_mem _ _ _ hfi _ hxi
    obtain ⟨hq, hvis⟩ := cornerAt_mem hfj _ _ _ hxj
    have hi : i = i0 := congrArg Prod.fst hq
    have hj : j = j0 := congrArg Prod.snd hq
    rw [hi, hj]
    exact hvis

/-- Witness for `C6_corner_glyphs` at a concrete input. -/
theorem C6_corner_glyphs_witness : get2d [[true]] 0 0 = true :=
  C6_corner_glyphs.2 [5] [7] [[true]] [((0, 0), (5, 7), " ")] 0 0 (5, 7) " "
    (by decide) (by decide)

/-! ## Occlusion-grid lemmas (C5) -/

theorem set_oob {α : Type} (l : List α) {i : Nat} (v : α) (h : l.length ≤ i) :
    l.set i v = l := by
  induction l generalizing i with
  | nil => simp
  | cons a as ih =>
    cases i with
    | zero => simp at h
    | succ n =>
      show a :: as.set n v = a :: as
      rw [ih (by simpa using h)]

theorem getD_mem {α : Type} (l : List α) {i : Nat} (d : α) (h : i < l.length) :
    l.getD i d ∈ l := by
  induction l generalizing i with
  | nil => simp at h
  | cons a as ih =>
    cases i with
    | zero => simp [List.getD]
    | succ n =>
      rw [List.getD_cons_succ]
      exact List.mem_cons_of_mem a (ih (by simpa using h))

theorem set_getD_any {α : Type} (l : List α) (i : Nat) (d : α) :
    l.set i (l.getD i d) = l := by
  induction l generalizing i with
  | nil => simp
  | cons a as ih =>
    cases i with
    | zero => simp [List.getD]
    | succ n =>
      show a :: as.set n ((a :: as).getD (n + 1) d) = a :: as
      rw [List.getD_cons_succ, ih]

theorem mem_of_mem_set {α : Type} : ∀ (l : List α) (i : Nat) (v x : α),
    x ∈ l.set i v → x ∈ l ∨ x = v := by
  intro l
  induction l with
  | nil => intro i v x hx; simp at hx
  | cons a as ih =>
    intro i v x hx
    cases i with
    | zero =>
      rcases List.mem_cons.1 hx with rfl | hx2
      · exact Or.inr rfl
      · exact Or.inl (List.mem_cons_of_mem a hx2)
    | succ n =>
      rcases List.mem_cons.1 hx with rfl | hx2
      · exact Or.inl (List.mem_cons_self x as)
      · rcases ih n v x hx2 with h1 | h2
        · exact Or.inl (List.mem_cons_of_mem a h1)
        · exact Or.inr h2

theorem set2dFalse_shape {g : List (List Bool)} {lenx leny : Nat} (a b : Nat)
    (h1 : g.length = lenx) (h2 : ∀ row ∈ g, row.length = leny) :
    (set2dFalse g a b).length = lenx ∧ ∀ row ∈ set2dFalse g a b, row.length = leny := by
  by_cases ha : a < g.length
  · constructor
    · rw [set2dFalse, List.length_set, h1]
    · intro row hrow
      rcases mem_of_mem_set _ _ _ _ hrow with hin | hset
      · exact h2 row hin
      · subst hset
        rw [List.length_set]
        exact h2 _ (getD_mem g [] ha)
  · have hno : set2dFalse g a b = g := by
      rw [set2dFalse, set_oob g _ (by omega)]
    rw [hno]
    exact ⟨h1, h2⟩

theorem get2d_set2dFalse_false_iff {g : List (List Bool)} {lenx leny : Nat}
    (h1 : g.length = lenx) (h2 : ∀ row ∈ g, row.length = leny) (a b i j : Nat) :
    (get2d (set2dFalse g a b) i j = false ↔
      (i = a ∧ j = b ∧ a < lenx ∧ b < leny) ∨ get2d g i j = false) := by
  by_cases hia : i = a
  · subst hia
    by_cases hjb : j = b
    · subst hjb
      by_cases hax : i < lenx
      · by_cases hby : j < leny
        · have hrow : (set2dFalse g i j).getD i [] = (g.getD i []).set j false :=
            getD_set_self g i _ [] (by omega)
          have hval : ((g.getD i []).set j false).getD j true = false :=
            getD_set_self _ j false true
              (by rw [h2 _ (getD_mem g [] (by omega))]; omega)
          simp only [get2d, set2dFalse] at *
          rw [hrow, hval]
          simp [hax, hby]
        · have hrowlen : (g.getD i []).length = leny := by
            by_cases hax2 : i < g.length
            · exact h2 _ (getD_mem g [] hax2)
            · omega
          have hnoop : set2dFalse g i j = g := by
            rw [set2dFalse, set_oob (g.getD i []) false (by omega), set_getD_any]
          rw [hnoop]
          simp [hby]
      · have hnoop : set2dFalse g i j = g := by
          rw [set2dFalse, set_oob g _ (by omega)]
        rw [hnoop]
        simp [hax]
    · have hget : get2d (set2dFalse g i b) i j = get2d g i j := by
        simp only [get2d, set2dFalse]
        by_cases hax2 : i < g.length
        · rw [getD_set_self g i _ [] hax2,
            getD_set_ne _ _ _ (fun h : b = j => hjb h.symm)]
        · rw [set_oob g _ (by omega)]
      rw [hget]
      simp [hjb]
  · have hget : get2d (set2dFalse g a b) i j = get2d g i j := by
      simp only [get2d, set2dFalse]
      rw [getD_set_ne _ _ _ (fun h : a = i => hia h.symm)]
    rw [hget]
    simp [hia]

theorem foldJ_shape (a : Nat) : ∀ (js : List Nat) (g : List (List Bool)) {lenx leny : Nat},
    g.length = lenx → (∀ row ∈ g, row.length = leny) →
    ((js.foldl (fun h2 j' => set2dFalse h2 a j') g).length = lenx ∧
      ∀ row ∈ js.foldl (fun h2 j' => set2dFalse h2 a j') g, row.length = leny) := by
  intro js
  induction js with
  | nil => intro g lenx leny h1 h2; exact ⟨h1, h2⟩
  | cons j0 js ih =>
    intro g lenx leny h1 h2
    rw [List.foldl_cons]
    obtain ⟨s1, s2⟩ := set2dFalse_shape a j0 h1 h2
    exact ih _ s1 s2

theorem foldJ_false_iff (a : Nat) : ∀ (js : List Nat) (g : List (List Bool)) (i j : Nat)
    {lenx leny : Nat}, g.length = lenx → (∀ row ∈ g, row.length = leny) →
    (get2d (js.foldl (fun h2 j' => set2dFalse h2 a j') g) i j = false ↔
      (i = a ∧ j ∈ js ∧ a < lenx ∧ j < leny) ∨ get2d g i j = false) := by
  intro js
  induction js with
  | nil => intro g i j lenx leny h1 h2; simp
  | cons j0 js ih =>
    intro g i j lenx leny h1 h2
    rw [List.foldl_cons]
    obtain ⟨s1, s2⟩ := set2dFalse_shape a j0 h1 h2
    rw [ih _ i j s1 s2, get2d_set2dFalse_false_iff h1 h2 a j0 i j]
    simp only [List.mem_cons]
    constructor
    · rintro (⟨hi, hj, hx, hy⟩ | (⟨hi, hj, hx, hy⟩ | hf))
      · exact Or.inl ⟨hi, Or.inr hj, hx, hy⟩
      · subst hj
        exact Or.inl ⟨hi, Or.inl rfl, hx, hy⟩
      · exact Or.inr hf
    · rintro (⟨hi, rfl | hj, hx, hy⟩ | hf)
      · exact Or.inr (Or.inl ⟨hi, rfl, hx, hy⟩)
      · exact Or.inl ⟨hi, hj, hx, hy⟩
      · exact Or.inr (Or.inr hf)

theorem foldIJ_shape (js : List Nat) : ∀ (is : List Nat) (g : List (List Bool))
    {lenx leny : Nat}, g.length = lenx → (∀ row ∈ g, row.length = leny) →
    ((is.foldl (fun h i' => js.foldl (fun h2 j' => set2dFalse h2 i' j') h) g).length = lenx ∧
      ∀ row ∈ is.foldl (fun h i' => js.foldl (fun h2 j' => set2dFalse h2 i' j') h) g,
        row.length = leny) := by
  intro is
  induction is with
  | nil => intro g lenx leny h1 h2; exact ⟨h1, h2⟩
  | cons i0 is ih =>
    intro g lenx leny h1 h2
    rw [List.foldl_cons]
    obtain ⟨s1, s2⟩ := foldJ_shape i0 js g h1 h2
    exact ih _ s1 s2

theorem foldIJ_false_iff (js : List Nat) : ∀ (is : List Nat) (g : List (List Bool))
    (i j : Nat) {lenx leny : Nat}, g.length = lenx → (∀ row ∈ g, row.length = leny) →
    (get2d (is.foldl (fun h i' => js.foldl (fun h2 j' => set2dFalse h2 i' j') h) g) i j
        = false ↔
      (i ∈ is ∧ j ∈ js ∧ i < lenx ∧ j < leny) ∨ get2d g i j = false) := by
  intro is
  induction is with
  | nil => intro g i j lenx leny h1 h2; simp
  | cons i0 is ih =>
    intro g i j lenx leny h1 h2
    rw [List.foldl_cons]
    obtain ⟨s1, s2⟩ := foldJ_shape i0 js g h1 h2
    rw [ih _ i j s1 s2, foldJ_false_iff i0 js g i j h1 h2]
    simp only [List.mem_cons]
    constructor
    · rintro (⟨hi, hj, hx, hy⟩ | (⟨hi, hj, hx, hy⟩ | hf))
      · exact Or.inl ⟨Or.inr hi, hj, hx, hy⟩
      · subst hi
        exact Or.inl ⟨Or.inl rfl, hj, hx, hy⟩
      · exact Or.inr hf
    · rintro (⟨hi | hi, hj, hx, hy⟩ | hf)
      · subst hi
        exact Or.inr (Or.inl ⟨rfl, hj, hx, hy⟩)
      · exact Or.inl ⟨hi, hj, hx, hy⟩
      · exact Or.inr (Or.inr hf)

theorem interior_bounds {lenx leny : Nat} {loc : Rect} {i j : Nat}
    (h : interiorOf lenx leny loc i j) : i < lenx ∧ j < leny := by
  unfold interiorOf at h
  simp only [Rect.intersection, Rect.right, Rect.bottom] at h
  omega

theorem markSpan_shape (lenx leny : Nat) (loc : Rect) (g : List (List Bool))
    {lenx2 leny2 : Nat} (h1 : g.length = lenx2) (h2 : ∀ row ∈ g, row.length = leny2) :
    ((markSpan lenx leny g loc).length = lenx2 ∧
      ∀ row ∈ markSpan lenx leny g loc, row.length = leny2) := by
  simp only [markSpan]
  split
  · exact ⟨h1, h2⟩
  · exact foldIJ_shape _ _ g h1 h2

theorem markSpan_false_iff (lenx leny : Nat) (loc : Rect) (g : List (List Bool))
    (h1 : g.length = lenx) (h2 : ∀ row ∈ g, row.length = leny) (i j : Nat) :
    (get2d (markSpan lenx leny g loc) i j = false ↔
      interiorOf lenx leny loc i j ∨ get2d g i j = false) := by
  simp only [markSpan, interiorOf]
  by_cases hdeg : (loc.intersection ⟨0, 0, lenx, leny⟩).right ≤ 1
      ∨ (loc.intersection ⟨0, 0, lenx, leny⟩).bottom ≤ 1
  · rw [if_pos (by simp only [Bool.or_eq_true, decide_eq_true_eq]; exact hdeg)]
    constructor
    · exact Or.inr
    · rintro (⟨⟨hr, hb⟩, _⟩ | h)
      · omega
      · exact h
  · push_neg at hdeg
    obtain ⟨hr1, hb1⟩ := hdeg
    rw [if_neg (by simp only [Bool.or_eq_true, decide_eq_true_eq]; omega)]
    rw [foldIJ_false_iff _ _ g i j h1 h2]
    simp only [List.mem_range'_1]
    constructor
    · rintro (⟨hi, hj, hx, hy⟩ | hf)
      · exact Or.inl ⟨⟨hr1, hb1⟩, by omega, by omega, by omega, by omega⟩
      · exact Or.inr hf
    · rintro (⟨_, hix, hix2, hjy, hjy2⟩ | hf)
      · have hbd := @interior_bounds lenx leny loc i j
          ⟨⟨hr1, hb1⟩, hix, hix2, hjy, hjy2⟩
        exact Or.inl ⟨⟨by omega, by omega⟩, ⟨by omega, by omega⟩, hbd.1, hbd.2⟩
      · exact Or.inr hf

theorem computeGP_false_iff : ∀ (spans : List Rect) (g : List (List Bool)) (i j : Nat)
    {lenx leny : Nat}, g.length = lenx → (∀ row ∈ g, row.length = leny) →
    (get2d (spans.foldl (markSpan lenx leny) g) i j = false ↔
      (∃ loc ∈ spans, interiorOf lenx leny loc i j) ∨ get2d g i j = false) := by
  intro spans
  induction spans with
  | nil => intro g i j lenx leny h1 h2; simp
  | cons loc spans ih =>
    intro g i j lenx leny h1 h2
    rw [List.foldl_cons]
    obtain ⟨s1, s2⟩ := markSpan_shape lenx leny loc g h1 h2
    rw [ih _ i j s1 s2, markSpan_false_iff lenx leny loc g h1 h2 i j]
    simp only [List.mem_cons]
    constructor
    · rintro (⟨l0, hl0, hint⟩ | (hint | hf))
      · exact Or.inl ⟨l0, Or.inr hl0, hint⟩
      · exact Or.inl ⟨loc, Or.inl rfl, hint⟩
      · exact Or.inr hf
    · rintro (⟨l0, rfl | hl0, hint⟩ | hf)
      · exact Or.inr (Or.inl hint)
      · exact Or.inl ⟨l0, hl0, hint⟩
      · exact Or.inr (Or.inr hf)

theorem getD_replicate {α : Type} : ∀ (n i : Nat) (a d : α),
    (List.replicate n a).getD i d = if i < n then a else d := by
  intro n
  induction n with
  | zero => intro i a d; simp
  | succ m ih =>
    intro i a d
    cases i with
    | zero => simp [List.replicate, List.getD]
    | succ k =>
      rw [List.replicate, List.getD_cons_succ, ih]
      by_cases hk : k < m
      · rw [if_pos hk, if_pos (by omega)]
      · rw [if_neg hk, if_neg (by omega)]

theorem get2d_base (lenx leny i j : Nat) :
    get2d (List.replicate lenx (List.replicate leny true)) i j = true := by
  unfold get2d
  rw [getD_replicate]
  by_cases hi : i < lenx
  · rw [if_pos hi, getD_replicate]
    split <;> rfl
  · rw [if_neg hi]
    simp [List.getD]

/-- C5: a grid point `(i, j)` of the visibility grid built by
`compute_layout` is occluded exactly when it lies strictly interior to at
least one registered widget span that is non-degenerate after clipping to
the grid bounds (`interiorOf`); all other points — those on a span's
bounding border lines or outside every span — stay visible. The second
conjunct shows this is independent of the processing order of overlapping
spans: any permutation of the span list yields the same visibility at every
point. -/
theorem C5_occlusion_iff (spans : List Rect) (lenx leny i j : Nat) :
    (get2d (computeGridPoints spans lenx leny) i j = false ↔
      ∃ loc ∈ spans, interiorOf lenx leny loc i j) ∧
    (∀ spans' : List Rect, spans.Perm spans' →
      get2d (computeGridPoints spans lenx leny) i j
        = get2d (computeGridPoints spans' lenx leny) i j) := by
  have hbase1 : (List.replicate lenx (List.replicate leny true)).length = lenx :=
    List.length_replicate lenx _
  have hbase2 : ∀ row ∈ List.replicate lenx (List.replicate leny true),
      row.length = leny := by
    intro row hrow
    rw [List.eq_of_mem_replicate hrow]
    exact List.length_replicate leny _
  have hmain : ∀ sp : List Rect,
      (get2d (computeGridPoints sp lenx leny) i j = false ↔
        ∃ loc ∈ sp, interiorOf lenx leny loc i j) := by
    intro sp
    rw [computeGridPoints, computeGP_false_iff sp _ i j hbase1 hbase2, get2d_base]
    simp
  refine ⟨hmain spans, ?_⟩
  intro spans' hperm
  have h1 := hmain spans
  have h2 := hmain spans'
  have hiff : (∃ loc ∈ spans, interiorOf lenx leny loc i j) ↔
      (∃ loc ∈ spans', interiorOf lenx leny loc i j) := by
    constructor
    · rintro ⟨l0, hl0, hint⟩
      exact ⟨l0, hperm.subset hl0, hint⟩
    · rintro ⟨l0, hl0, hint⟩
      exact ⟨l0, hperm.symm.subset hl0, hint⟩
  cases hv : get2d (computeGridPoints spans lenx leny) i j
  · have := h2.2 (hiff.1 (h1.1 hv))
    rw [this]
  · cases hv2 : get2d (computeGridPoints spans' lenx leny) i j
    · exact absurd (hiff.2 (h2.1 hv2)) (by rw [← h1, hv]; simp)
    · rfl

/-- Witness for `C5_occlusion_iff` at a concrete input (the permutation
conjunct applied to two overlapping spans listed in both orders). -/
theorem C5_occlusion_iff_witness :
    get2d (computeGridPoints [⟨0, 0, 3, 3⟩, ⟨1, 1, 4, 4⟩] 5 5) 2 2
      = get2d (computeGridPoints [⟨1, 1, 4, 4⟩, ⟨0, 0, 3, 3⟩] 5 5) 2 2 :=
  (C5_occlusion_iff [⟨0, 0, 3, 3⟩, ⟨1, 1, 4, 4⟩] 5 5 2 2).2
    [⟨1, 1, 4, 4⟩, ⟨0, 0, 3, 3⟩] (List.Perm.swap _ _ _)

/-! ## Minimums-zero proportionality machinery (C2) -/

theorem list_sum_nonpos (l : List Int) (h : ∀ x ∈ l, x ≤ 0) : l.sum ≤ 0 := by
  induction l with
  | nil => simp
  | cons a as ih =>
    simp only [List.sum_cons]
    have := h a (List.mem_cons_self a as)
    have := ih fun x hx => h x (List.mem_cons_of_mem a hx)
    omega

theorem count_mul_le_sum (T : Int) (hT : 0 < T) : ∀ (l : List Int), (∀ x ∈ l, 0 ≤ x) →
    T * (l.count T : Int) ≤ l.sum := by
  intro l
  induction l with
  | nil => simp
  | cons a as ih =>
    intro h
    have has := ih fun x hx => h x (List.mem_cons_of_mem a hx)
    have ha := h a (List.mem_cons_self a as)
    rw [List.count_cons, List.sum_cons]
    by_cases hat : a = T
    · rw [if_pos (by simp [hat])]
      push_cast
      subst hat
      linarith
    · rw [if_neg (by simp only [beq_iff_eq]; exact hat)]
      simp only [Nat.add_zero]
      linarith

theorem count_eq_zero_of_lt (T : Int) : ∀ (l : List Int), (∀ x ∈ l, x < T) →
    l.count T = 0 := by
  intro l h
  rw [List.count_eq_zero]
  intro hmem
  exact absurd (h T hmem) (lt_irrefl T)

theorem getD_map_lt {α β : Type} (f : α → β) : ∀ (l : List α) (i : Nat) (d : β) (d' : α),
    i < l.length → (l.map f).getD i d = f (l.getD i d') := by
  intro l
  induction l with
  | nil => intro i d d' h; simp at h
  | cons a as ih =>
    intro i d d' h
    cases i with
    | zero => simp [List.getD]
    | succ n =>
      simp only [List.map_cons, List.getD_cons_succ]
      exact ih n d d' (by simpa using h)

theorem enumFrom_getD {α : Type} (d : α) : ∀ (l : List α) (n : Nat) (p : Nat × α),
    p ∈ List.enumFrom n l → l.getD (p.1 - n) d = p.2 := by
  intro l
  induction l with
  | nil => intro n p hp; simp [List.enumFrom] at hp
  | cons a as ih =>
    intro n p hp
    simp only [List.enumFrom, List.mem_cons] at hp
    rcases hp with rfl | hp
    · simp [List.getD]
    · have h1 := (enumFrom_mem_facts as (n + 1) p hp).1
      have h2 := ih (n + 1) p hp
      have h3 : p.1 - n = (p.1 - (n + 1)) + 1 := by omega
      rw [h3, List.getD_cons_succ]
      exact h2

theorem enum_getD {α : Type} (d : α) (l : List α) (p : Nat × α) (hp : p ∈ l.enum) :
    l.getD p.1 d = p.2 := by
  have h := enumFrom_getD d l 0 p hp
  simpa using h

theorem invMZ_step {dims : List GridDimension} {T A0 : Int} {st : AllocState}
    (hT : 1 ≤ T) (hInv : InvMZ dims T A0 st) (hpos : 0 < st.allocate)
    {b : WeightItem} {rest : List WeightItem}
    (hpop : popMax st.heap = some (b, rest)) :
    InvMZ dims T A0 (allocStep T b rest st.sizes st.allocate) ∧
    (allocStep T b rest st.sizes st.allocate).allocate < st.allocate := by
  have hperm := popMax_perm hpop
  have hmaxr := popMax_is_max hpop
  have hbmem : b ∈ st.heap := hperm.symm.subset (List.mem_cons_self b rest)
  have hrmem : ∀ x ∈ rest, x ∈ st.heap := fun x hx =>
    hperm.symm.subset (List.mem_cons_of_mem b hx)
  have hwperm : (st.heap.map fun it => it.weight).Perm
      (b.weight :: rest.map fun it => it.weight) := by
    have h := hperm.map fun it => it.weight
    simpa using h
  have hsum : b.weight + (rest.map fun it => it.weight).sum = T * st.allocate := by
    have h := hwperm.sum_eq
    rw [hInv.sum_eq] at h
    simpa using h.symm
  have hidxperm2 : (b.index :: rest.map fun it => it.index).Perm
      (List.range dims.length) := by
    have h := (hperm.map fun it => it.index).symm.trans hInv.idx_perm
    simpa using h
  have hbidxlt : b.index < dims.length := by
    have h : b.index ∈ List.range dims.length := hidxperm2.subset (List.mem_cons_self _ _)
    simpa using h
  have hbidx : b.index < st.sizes.length := by
    rw [hInv.szlen]
    exact hbidxlt
  have hnodup : (b.index :: rest.map fun it => it.index).Nodup :=
    hidxperm2.symm.nodup (List.nodup_range _)
  have hbnotin : b.index ∉ rest.map fun it => it.index := (List.nodup_cons.1 hnodup).1
  have hlinkb := hInv.link b hbmem
  have hidxpermStep : ((rest.map fun it => it.index) ++ [b.index]).Perm
      (List.range dims.length) :=
    (List.perm_append_singleton _ _).trans hidxperm2
  by_cases hdiv : T < b.weight
  · -- division branch
    have hstepeq : allocStep T b rest st.sizes st.allocate =
        { sizes := st.sizes.set b.index (st.sizes.getD b.index 0 + b.weight / T)
          allocate := st.allocate - b.weight / T
          heap := rest ++ [⟨b.weight - T * (b.weight / T), b.index⟩] } := by
      simp only [allocStep]
      rw [if_pos hdiv]
    have hleft : ∀ it ∈ st.heap, 0 ≤ it.weight := by
      rcases hInv.phase with hl | hr
      · exact hl
      · exfalso
        have := hr.1 b hbmem
        omega
    have hrest_nonneg : ∀ x ∈ rest.map fun it => it.weight, 0 ≤ x := by
      intro x hx
      obtain ⟨it, hit, rfl⟩ := List.mem_map.1 hx
      exact hleft it (hrmem it hit)
    have hble : b.weight ≤ T * st.allocate := by
      have hs := list_sum_nonneg _ hrest_nonneg
      omega
    have hamount1 : 1 ≤ b.weight / T := one_le_ediv hT (le_of_lt hdiv)
    have hamountle : b.weight / T ≤ st.allocate := by
      have h1 : b.weight / T ≤ T * st.allocate / T := Int.ediv_le_ediv (by omega) hble
      rwa [Int.mul_ediv_cancel_left _ (by omega)] at h1
    have hmod_def : b.weight - T * (b.weight / T) = b.weight % T :=
      (Int.emod_def b.weight T).symm
    have hmodnn : 0 ≤ b.weight % T := Int.emod_nonneg _ (by omega)
    have hmodlt : b.weight % T < T := Int.emod_lt_of_pos _ (by omega)
    rw [hstepeq]
    refine ⟨⟨?_, ?_, ?_, ?_, ?_, ?_, ?_⟩, ?_⟩
    · show 0 ≤ st.allocate - b.weight / T
      omega
    · show (((rest ++ [(⟨b.weight - T * (b.weight / T), b.index⟩ : WeightItem)]).map
          fun it => it.weight).sum) = T * (st.allocate - b.weight / T)
      rw [List.map_append, List.sum_append]
      simp only [List.map_cons, List.map_nil, List.sum_cons, List.sum_nil]
      have h2 : (rest.map fun it => it.weight).sum = T * st.allocate - b.weight := by
        omega
      rw [h2]
      ring
    · intro it hit
      rcases List.mem_append.1 hit with h1 | h2
      · exact hInv.lower it (hrmem it h1)
      · simp only [List.mem_singleton] at h2
        subst h2
        show -T < b.weight - T * (b.weight / T)
        omega
    · refine Or.inl ?_
      intro it hit
      rcases List.mem_append.1 hit with h1 | h2
      · exact hleft it (hrmem it h1)
      · simp only [List.mem_singleton] at h2
        subst h2
        show 0 ≤ b.weight - T * (b.weight / T)
        omega
    · show (((rest ++ [(⟨b.weight - T * (b.weight / T), b.index⟩ : WeightItem)]).map
          fun it => it.index).Perm (List.range dims.length))
      rw [List.map_append]
      simpa using hidxpermStep
    · show (st.sizes.set b.index (st.sizes.getD b.index 0 + b.weight / T)).length
        = dims.length
      rw [List.length_set]
      exact hInv.szlen
    · intro it hit
      rcases List.mem_append.1 hit with h1 | h2
      · have hne : b.index ≠ it.index := by
          intro hc
          exact hbnotin (hc ▸ List.mem_map_of_mem (fun x => x.index) h1)
        rw [getD_set_ne _ _ _ hne]
        exact hInv.link it (hrmem it h1)
      · simp only [List.mem_singleton] at h2
        subst h2
        show b.weight - T * (b.weight / T)
          = ((dims.getD b.index default).weight : Int) * A0
            - T * ((st.sizes.set b.index
                (st.sizes.getD b.index 0 + b.weight / T)).getD b.index 0 - 1)
        rw [getD_set_self _ _ _ _ hbidx, hlinkb]
        ring
    · show st.allocate - b.weight / T < st.allocate
      omega
  · -- single-unit branch
    have hwle : b.weight ≤ T := le_of_not_lt hdiv
    have hrestle : ∀ x ∈ rest, x.weight ≤ b.weight := fun x hx =>
      wiLe_weight_le (hmaxr x hx)
    have hstepeq : allocStep T b rest st.sizes st.allocate =
        { sizes := st.sizes.set b.index (st.sizes.getD b.index 0 + 1)
          allocate := st.allocate - 1
          heap := rest ++ [⟨b.weight - T, b.index⟩] } := by
      simp only [allocStep]
      rw [if_neg hdiv]
    have hbpos : 1 ≤ b.weight := by
      by_contra hc
      push_neg at hc
      have hallle : ∀ x ∈ rest.map fun it => it.weight, x ≤ 0 := by
        intro x hx
        obtain ⟨it, hit, rfl⟩ := List.mem_map.1 hx
        have := hrestle it hit
        omega
      have hs := list_sum_nonpos _ hallle
      have hTa : T ≤ T * st.allocate := le_mul_of_one_le_right (by omega) (by omega)
      omega
    rw [hstepeq]
    refine ⟨⟨?_, ?_, ?_, ?_, ?_, ?_, ?_⟩, ?_⟩
    · show 0 ≤ st.allocate - 1
      omega
    · show (((rest ++ [(⟨b.weight - T, b.index⟩ : WeightItem)]).map
          fun it => it.weight).sum) = T * (st.allocate - 1)
      rw [List.map_append, List.sum_append]
      simp only [List.map_cons, List.map_nil, List.sum_cons, List.sum_nil]
      have h2 : (rest.map fun it => it.weight).sum = T * st.allocate - b.weight := by
        omega
      rw [h2]
      ring
    · intro it hit
      rcases List.mem_append.1 hit with h1 | h2
      · exact hInv.lower it (hrmem it h1)
      · simp only [List.mem_singleton] at h2
        subst h2
        show -T < b.weight - T
        omega
    · refine Or.inr ⟨?_, ?_⟩
      · intro it hit
        rcases List.mem_append.1 hit with h1 | h2
        · have := hrestle it h1
          omega
        · simp only [List.mem_singleton] at h2
          subst h2
          show b.weight - T ≤ T
          omega
      · show ((((rest ++ [(⟨b.weight - T, b.index⟩ : WeightItem)]).map
            fun it => it.weight).count T : Int)) ≤ st.allocate - 1
        have hcount_app : ((rest ++ [(⟨b.weight - T, b.index⟩ : WeightItem)]).map
              fun it => it.weight)
            = (rest.map fun it => it.weight) ++ [b.weight - T] := by
          rw [List.map_append]
          rfl
        rw [hcount_app, List.count_append]
        have hsing : ([b.weight - T] : List Int).count T = 0 := by
          rw [List.count_eq_zero]
          intro hmem
          simp only [List.mem_singleton] at hmem
          omega
        rw [hsing, Nat.add_zero]
        have hcw : ((st.heap.map fun it => it.weight).count T)
            = ((b.weight :: rest.map fun it => it.weight).count T) :=
          hwperm.count_eq T
        by_cases hbw : b.weight = T
        · -- the popped token was exactly T
          rcases hInv.phase with hl | hr
          · -- left phase: bound the count through the sum
            have hrest_nonneg : ∀ x ∈ rest.map fun it => it.weight, 0 ≤ x := by
              intro x hx
              obtain ⟨it, hit, rfl⟩ := List.mem_map.1 hx
              exact hl it (hrmem it hit)
            have hcle := count_mul_le_sum T (by omega) _ hrest_nonneg
            have h2 : (rest.map fun it => it.weight).sum = T * st.allocate - b.weight := by
              omega
            rw [h2, hbw] at hcle
            have h3 : T * ((rest.map fun it => it.weight).count T : Int)
                ≤ T * (st.allocate - 1) := by
              have : T * st.allocate - T = T * (st.allocate - 1) := by ring
              omega
            have h4 := le_of_mul_le_mul_left h3 (by omega : (0 : Int) < T)
            omega
          · -- right phase: the count drops by one
            have hcnt := hr.2
            rw [hcw, List.count_cons] at hcnt
            rw [if_pos (by simp [hbw])] at hcnt
            push_cast at hcnt
            omega
        · -- the popped token was below T: nothing in the heap equals T
          have hblt : b.weight < T := by omega
          have hz : (rest.map fun it => it.weight).count T = 0 := by
            apply count_eq_zero_of_lt
            intro x hx
            obtain ⟨it, hit, rfl⟩ := List.mem_map.1 hx
            have := hrestle it hit
            omega
          rw [hz]
          omega
    · show (((rest ++ [(⟨b.weight - T, b.index⟩ : WeightItem)]).map
          fun it => it.index).Perm (List.range dims.length))
      rw [List.map_append]
      simpa using hidxpermStep
    · show (st.sizes.set b.index (st.sizes.getD b.index 0 + 1)).length = dims.length
      rw [List.length_set]
      exact hInv.szlen
    · intro it hit
      rcases List.mem_append.1 hit with h1 | h2
      · have hne : b.index ≠ it.index := by
          intro hc
          exact hbnotin (hc ▸ List.mem_map_of_mem (fun x => x.index) h1)
        rw [getD_set_ne _ _ _ hne]
        exact hInv.link it (hrmem it h1)
      · simp only [List.mem_singleton] at h2
        subst h2
        show b.weight - T
          = ((dims.getD b.index default).weight : Int) * A0
            - T * ((st.sizes.set b.index (st.sizes.getD b.index 0 + 1)).getD b.index 0 - 1)
        rw [getD_set_self _ _ _ _ hbidx, hlinkb]
        ring
    · show st.allocate - 1 < st.allocate
      omega

theorem invMZ_run {dims : List GridDimension} {T A0 : Int} (hT : 1 ≤ T)
    (hne : dims ≠ []) : ∀ (fuel : Nat) (st : AllocState), InvMZ dims T A0 st →
    st.allocate ≤ (fuel : Int) →
    ∃ st', allocRun T fuel st = some st' ∧ st'.allocate = 0 ∧ InvMZ dims T A0 st' := by
  intro fuel
  induction fuel with
  | zero =>
    intro st hInv hfuel
    have h0 : st.allocate = 0 := by
      have := hInv.alloc_nonneg
      simp only [Nat.cast_zero] at hfuel
      omega
    exact ⟨st, rfl, h0, hInv⟩
  | succ n ih =>
    intro st hInv hfuel
    by_cases hpos : 0 < st.allocate
    · have hheapne : st.heap ≠ [] := by
        intro hc
        have hp := hInv.idx_perm
        rw [hc] at hp
        simp only [List.map_nil] at hp
        have hnil := hp.symm.eq_nil
        rw [List.range_eq_nil] at hnil
        exact hne (List.length_eq_zero.1 hnil)
      obtain ⟨⟨b, rest⟩, hpop⟩ : ∃ p, popMax st.heap = some p := by
        cases hp : popMax st.heap with
        | none => exact absurd ((popMax_eq_none_iff _).1 hp) hheapne
        | some p => exact ⟨p, rfl⟩
      obtain ⟨hInv2, hdec⟩ := invMZ_step hT hInv hpos hpop
      have hfuel2 : (allocStep T b rest st.sizes st.allocate).allocate ≤ (n : Int) := by
        push_cast at hfuel ⊢
        omega
      obtain ⟨st', hrun, hz, hI⟩ := ih _ hInv2 hfuel2
      refine ⟨st', ?_, hz, hI⟩
      simp only [allocRun, if_pos hpos]
      rw [hpop]
      exact hrun
    · refine ⟨st, ?_, ?_, hInv⟩
      · simp only [allocRun, if_neg hpos]
      · have := hInv.alloc_nonneg
        omega

theorem sum_enum_weight_mul (dims : List GridDimension) (A : Int) :
    (dims.enum.map fun p => (p.2.weight : Int) * A).sum = totalWeight dims * A := by
  have h1 : (dims.enum.map fun p => (p.2.weight : Int) * A)
      = (dims.enum.map Prod.snd).map fun d => (d.weight : Int) * A := by
    rw [List.map_map]
    rfl
  rw [h1, List.enum_map_snd]
  have h2 : (dims.map fun d => (d.weight : Int) * A)
      = (dims.map fun d => (d.weight : Int)).map (· * A) := by
    rw [List.map_map]
    rfl
  rw [h2, sum_map_mul_const]
  rfl

theorem invMZ_init (dims : List GridDimension) (length : Nat)
    (hT : 1 ≤ totalWeight dims) (hmin : ∀ d ∈ dims, d.min = 0)
    (hA : 0 ≤ initAllocate dims length) :
    InvMZ dims (totalWeight dims) (initAllocate dims length) (initState dims length) := by
  refine ⟨hA, ?_, ?_, ?_, ?_, ?_, ?_⟩
  · show ((initHeap dims (initAllocate dims length) (totalWeight dims)).map
      fun it => it.weight).sum = totalWeight dims * initAllocate dims length
    unfold initHeap
    rw [List.map_map]
    have hcong : dims.enum.map ((fun it : WeightItem => it.weight) ∘ fun p =>
        (⟨(p.2.weight : Int) * initAllocate dims length
          - totalWeight dims * (p.2.min : Int), p.1⟩ : WeightItem))
        = dims.enum.map fun p => (p.2.weight : Int) * initAllocate dims length := by
      apply List.map_congr_left
      intro p hp
      have hm := hmin p.2 (enum_mem_facts dims p hp).2
      simp [Function.comp, hm]
    rw [hcong, sum_enum_weight_mul]
  · intro it hit
    simp only [initState, initHeap] at hit
    obtain ⟨p, hp, rfl⟩ := List.mem_map.1 hit
    have hm := hmin p.2 (enum_mem_facts dims p hp).2
    have hge : 0 ≤ (p.2.weight : Int) * initAllocate dims length :=
      mul_nonneg (Int.natCast_nonneg _) hA
    show -(totalWeight dims) < (p.2.weight : Int) * initAllocate dims length
      - totalWeight dims * (p.2.min : Int)
    rw [hm]
    simp only [Nat.cast_zero, mul_zero, sub_zero]
    omega
  · refine Or.inl ?_
    intro it hit
    simp only [initState, initHeap] at hit
    obtain ⟨p, hp, rfl⟩ := List.mem_map.1 hit
    have hm := hmin p.2 (enum_mem_facts dims p hp).2
    have hge : 0 ≤ (p.2.weight : Int) * initAllocate dims length :=
      mul_nonneg (Int.natCast_nonneg _) hA
    show 0 ≤ (p.2.weight : Int) * initAllocate dims length
      - totalWeight dims * (p.2.min : Int)
    rw [hm]
    simp only [Nat.cast_zero, mul_zero, sub_zero]
    omega
  · show ((initHeap dims (initAllocate dims length) (totalWeight dims)).map
      fun it => it.index).Perm (List.range dims.length)
    unfold initHeap
    rw [List.map_map]
    have h1 : dims.enum.map ((fun it : WeightItem => it.index) ∘ fun p =>
        (⟨(p.2.weight : Int) * initAllocate dims length
          - totalWeight dims * (p.2.min : Int), p.1⟩ : WeightItem))
        = dims.enum.map Prod.fst := rfl
    rw [h1, List.enum_map_fst]
  · show (initSizes dims).length = dims.length
    exact initSizes_length dims
  · intro it hit
    simp only [initState, initHeap] at hit ⊢
    obtain ⟨p, hp, rfl⟩ := List.mem_map.1 hit
    have hfacts := enum_mem_facts dims p hp
    have hgd : dims.getD p.1 default = p.2 := enum_getD default dims p hp
    have hm := hmin p.2 hfacts.2
    show (p.2.weight : Int) * initAllocate dims length - totalWeight dims * (p.2.min : Int)
      = ((dims.getD p.1 default).weight : Int) * initAllocate dims length
        - totalWeight dims * ((initSizes dims).getD p.1 0 - 1)
    rw [hgd]
    have hsz : (initSizes dims).getD p.1 0 = 1 + (p.2.min : Int) := by
      unfold initSizes
      rw [getD_map_lt _ dims p.1 0 default hfacts.1, hgd]
    rw [hsz, hm]
    push_cast
    ring

/-- C2 (amended): for every non-empty dimension list **whose minimums are
all zero**, with positive total weight and positive remaining space, each
dimension's final extra allocation differs from its ideal real-valued share
`remaining * weight / total_weight` by less than one unit — stated in the
integer-scaled form `|total_weight * extra_i - remaining * weight_i| <
total_weight`. The unamended claim fails for non-zero minimums because the
token initialization subtracts `total_weight * min`, skewing the
distribution away from proportionality on the extras — see the
counterexample, where a dimension's extra misses its ideal share by 2. -/
theorem C2_proportionality_minzero (dims : List GridDimension) (length : Nat)
    (hne : dims ≠ []) (hmin : ∀ d ∈ dims, d.min = 0)
    (hT : 0 < totalWeight dims) (hA : 0 < initAllocate dims length) :
    ∀ i, i < dims.length →
      |totalWeight dims * (allocatedExtras dims length).getD i 0
        - initAllocate dims length * ((dims.getD i default).weight : Int)|
        < totalWeight dims := by
  have hT1 : 1 ≤ totalWeight dims := hT
  have hInv0 := invMZ_init dims length hT1 hmin (le_of_lt hA)
  have hfuel : (initState dims length).allocate
      ≤ ((initAllocate dims length).toNat : Int) := by
    simp only [initState]
    exact Int.self_le_toNat _
  obtain ⟨st', hrun, hz, hI⟩ := invMZ_run hT1 hne _ _ hInv0 hfuel
  intro i hi
  have hmemi : i ∈ st'.heap.map fun it => it.index := by
    apply hI.idx_perm.symm.subset
    simpa using hi
  obtain ⟨it, hitmem, hiteq⟩ := List.mem_map.1 hmemi
  have hlow := hI.lower it hitmem
  have hup : it.weight < totalWeight dims := by
    rcases hI.phase with hl | hr
    · have hsum0 : (st'.heap.map fun x => x.weight).sum = 0 := by
        rw [hI.sum_eq, hz]
        ring
      have hnn : ∀ x ∈ st'.heap.map fun x => x.weight, 0 ≤ x := by
        intro x hx
        obtain ⟨y, hy, rfl⟩ := List.mem_map.1 hx
        exact hl y hy
      have h0 := list_sum_zero_of_nonneg hnn hsum0 it.weight
        (List.mem_map_of_mem _ hitmem)
      omega
    · have hle := hr.1 it hitmem
      have hcnt := hr.2
      rw [hz] at hcnt
      have hc0 : (st'.heap.map fun x => x.weight).count (totalWeight dims) = 0 := by
        omega
      have hne2 : it.weight ≠ totalWeight dims := by
        intro hc
        rw [List.count_eq_zero] at hc0
        exact hc0 (by rw [← hc]; exact List.mem_map_of_mem _ hitmem)
      omega
  have hlink := hI.link it hitmem
  rw [hiteq] at hlink
  have hfinal : allocFinal dims length = some st' := hrun
  have hextra : (allocatedExtras dims length).getD i 0
      = st'.sizes.getD i 0 - (initSizes dims).getD i 0 := by
    unfold allocatedExtras
    rw [hfinal]
    apply zipWith_sub_getD
    · rw [hI.szlen, initSizes_length]
    · rw [hI.szlen]
      exact hi
  have hsz1 : (initSizes dims).getD i 0 = 1 := by
    unfold initSizes
    rw [getD_map_lt _ dims i 0 default hi]
    rw [hmin (dims.getD i default) (getD_mem dims default hi)]
    simp
  rw [hextra, hsz1]
  rw [mul_comm (initAllocate dims length) _]
  rw [abs_lt]
  constructor
  · linarith [hlink, hup]
  · linarith [hlink, hlow]

/-- Witness for `C2_proportionality_minzero` at a concrete input. -/
theorem C2_proportionality_minzero_witness :
    |totalWeight [⟨0, 3⟩, ⟨0, 1⟩] * (allocatedExtras [⟨0, 3⟩, ⟨0, 1⟩] 20).getD 0 0
      - initAllocate [⟨0, 3⟩, ⟨0, 1⟩] 20
        * ((([⟨0, 3⟩, ⟨0, 1⟩] : List GridDimension).getD 0 default).weight : Int)|
      < totalWeight [⟨0, 3⟩, ⟨0, 1⟩] :=
  C2_proportionality_minzero [⟨0, 3⟩, ⟨0, 1⟩] 20 (by decide) (by decide) (by decide)
    (by decide) 0 (by decide)

/-- C2 counterexample: with dimensions `{min:6, weight:1}`, `{min:0,
weight:1}` and length 13 the remaining space is 4 and the ideal share of
each dimension is 2, but the first dimension receives 0 extra units (its
tokens start at `1*4 - 2*6 = -8`), missing its ideal share by 2 ≥ 1. -/
theorem C2_counterexample :
    ¬ (|totalWeight [⟨6, 1⟩, ⟨0, 1⟩] * (allocatedExtras [⟨6, 1⟩, ⟨0, 1⟩] 13).getD 0 0
      - initAllocate [⟨6, 1⟩, ⟨0, 1⟩] 13
        * ((([⟨6, 1⟩, ⟨0, 1⟩] : List GridDimension).getD 0 default).weight : Int)|
      < totalWeight [⟨6, 1⟩, ⟨0, 1⟩]) := by
  decide

/-! ## Checked-arithmetic lemmas (C9) -/

theorem chkI32_ok {x : Int} (h1 : -2147483648 ≤ x) (h2 : x < 2147483648) :
    chkI32 x = some x := by
  unfold chkI32
  rw [if_pos ⟨h1, h2⟩]

theorem chkSum32_ok : ∀ (l : List Int) (acc : Int), 0 ≤ acc → (∀ x ∈ l, 0 ≤ x) →
    acc + l.sum < 2147483648 → chkSum32 acc l = some (acc + l.sum) := by
  intro l
  induction l with
  | nil =>
    intro acc _ _ _
    simp [chkSum32]
  | cons x xs ih =>
    intro acc hacc hnn hcap
    have hx := hnn x (List.mem_cons_self x xs)
    have hxs : ∀ y ∈ xs, 0 ≤ y := fun y hy => hnn y (List.mem_cons_of_mem x hy)
    have hsxs : 0 ≤ xs.sum := list_sum_nonneg xs hxs
    simp only [List.sum_cons] at hcap
    simp only [chkSum32]
    rw [chkI32_ok (by omega) (by omega)]
    show chkSum32 (acc + x) xs = _
    rw [ih (acc + x) (by omega) hxs (by omega)]
    simp only [List.sum_cons]
    rw [add_assoc]

theorem chkList_ok {α β : Type} (f : α → Option β) (g : α → β) :
    ∀ (l : List α), (∀ a ∈ l, f a = some (g a)) → chkList f l = some (l.map g) := by
  intro l
  induction l with
  | nil => intro _; rfl
  | cons a as ih =>
    intro h
    simp only [chkList]
    rw [h a (List.mem_cons_self a as)]
    show (chkList f as).bind (fun bs => some (g a :: bs)) = some ((a :: as).map g)
    rw [ih fun x hx => h x (List.mem_cons_of_mem a hx)]
    rfl

theorem sum_le_length_mul (B : Int) : ∀ (l : List Int), (∀ x ∈ l, x ≤ B) →
    l.sum ≤ l.length * B := by
  intro l
  induction l with
  | nil => simp
  | cons x xs ih =>
    intro h
    simp only [List.sum_cons, List.length_cons]
    have hx := h x (List.mem_cons_self x xs)
    have hxs := ih fun y hy => h y (List.mem_cons_of_mem x hy)
    have : ((xs.length : Int) + 1) * B = xs.length * B + B := by ring
    push_cast
    omega

theorem chkAcc_ok : ∀ (l : List Int) (acc : Nat), (∀ s ∈ l, 1 ≤ s) →
    (acc : Int) + l.sum ≤ 65535 → chkAcc acc l = some (accBounds acc l) := by
  intro l
  induction l with
  | nil => intro acc _ _; rfl
  | cons s rest ih =>
    intro acc hpos hcap
    have hs := hpos s (List.mem_cons_self s rest)
    have hrest : ∀ x ∈ rest, 1 ≤ x := fun x hx => hpos x (List.mem_cons_of_mem s hx)
    have hsum : 0 ≤ rest.sum := list_sum_nonneg rest fun x hx => by
      have := hrest x hx
      omega
    simp only [List.sum_cons] at hcap
    simp only [chkAcc]
    rw [if_pos ⟨by omega, by omega⟩]
    have htn : ((s.toNat : Int)) = s := Int.toNat_of_nonneg (by omega)
    have hadd : checkedAdd16 acc s.toNat = some (acc + s.toNat) := by
      unfold checkedAdd16
      rw [if_pos (by omega)]
    rw [hadd]
    show (chkAcc (acc + s.toNat) rest).bind (fun tail => some (acc :: tail))
      = some (accBounds acc (s :: rest))
    rw [ih (acc + s.toNat) hrest (by push_cast; omega)]
    show some (acc :: accBounds (acc + s.toNat) rest) = _
    rfl

/-- C9 counterexample: the single dimension `{min:0, weight:65535}` with
available length 65535 — all inputs within the unsigned 16-bit range — makes
the very first token product `weight * allocate = 65535 * 65533` exceed
`i32::MAX`, so the guarded model fails. -/
theorem C9_counterexample :
    layout_grid_dim_checked [⟨0, 65535⟩] 0 65535 = none := by
  decide

theorem checkedAllocStep_ok {T : Int} {st : AllocState} {b : WeightItem}
    {rest : List WeightItem}
    (hT : 0 ≤ T) (hTc : T ≤ 32385)
    (hInv : InvGen T st) (hpos : 0 < st.allocate)
    (hpop : popMax st.heap = some (b, rest))
    (hal : st.allocate ≤ 32766)
    (hcap : st.sizes.sum + st.allocate ≤ 65533)
    (hszpos : ∀ s ∈ st.sizes, 1 ≤ s)
    (htokU : ∀ it ∈ st.heap, it.weight ≤ 16777216)
    (htokL : ∀ it ∈ st.heap, -16777216 - T * (32766 - st.allocate) ≤ it.weight) :
    checkedAllocStep T b rest st.sizes st.allocate
      = some (allocStep T b rest st.sizes st.allocate) ∧
    InvGen T (allocStep T b rest st.sizes st.allocate) ∧
    (allocStep T b rest st.sizes st.allocate).allocate < st.allocate ∧
    (allocStep T b rest st.sizes st.allocate).allocate ≤ 32766 ∧
    (allocStep T b rest st.sizes st.allocate).sizes.sum
      + (allocStep T b rest st.sizes st.allocate).allocate ≤ 65533 ∧
    (∀ s ∈ (allocStep T b rest st.sizes st.allocate).sizes, 1 ≤ s) ∧
    (∀ it ∈ (allocStep T b rest st.sizes st.allocate).heap, it.weight ≤ 16777216) ∧
    (∀ it ∈ (allocStep T b rest st.sizes st.allocate).heap,
      -16777216 - T * (32766 - (allocStep T b rest st.sizes st.allocate).allocate)
        ≤ it.weight) := by
  have hperm := popMax_perm hpop
  have hbmem : b ∈ st.heap := hperm.symm.subset (List.mem_cons_self b rest)
  have hrmem : ∀ x ∈ rest, x ∈ st.heap := fun x hx =>
    hperm.symm.subset (List.mem_cons_of_mem b hx)
  have hbidx : b.index < st.sizes.length := hInv.idx_lt b hbmem
  have hbU := htokU b hbmem
  have hbL := htokL b hbmem
  have hsold : 1 ≤ st.sizes.getD b.index 0 := hszpos _ (getD_mem st.sizes 0 hbidx)
  obtain ⟨hInv2, hdec, hsumc⟩ := invGen_step hInv hpos hpop
  have hLBmono : ∀ a2 : Int, a2 ≤ st.allocate →
      T * (32766 - st.allocate) ≤ T * (32766 - a2) := by
    intro a2 h
    exact mul_le_mul_of_nonneg_left (by omega) hT
  by_cases hdiv : T < b.weight
  · -- division branch
    have hT1 : 1 ≤ T := by
      rcases lt_or_eq_of_le hT with h0 | h0
      · omega
      · exfalso
        have := hInv.tz h0.symm b hbmem
        omega
    have hstepeq : allocStep T b rest st.sizes st.allocate =
        { sizes := st.sizes.set b.index (st.sizes.getD b.index 0 + b.weight / T)
          allocate := st.allocate - b.weight / T
          heap := rest ++ [⟨b.weight - T * (b.weight / T), b.index⟩] } := by
      simp only [allocStep]
      rw [if_pos hdiv]
    have hamount1 : 1 ≤ b.weight / T := one_le_ediv hT1 (le_of_lt hdiv)
    have hTa : T * (b.weight / T) ≤ b.weight := mul_ediv_le_self b.weight (by omega)
    have hTa0 : 0 ≤ T * (b.weight / T) := mul_nonneg (by omega) (by omega)
    have ha0 : 0 ≤ st.allocate - b.weight / T := by
      have h := hInv2.alloc_nonneg
      rw [hstepeq] at h
      exact h
    have hmod_def : b.weight - T * (b.weight / T) = b.weight % T :=
      (Int.emod_def b.weight T).symm
    have hmodnn : 0 ≤ b.weight % T := Int.emod_nonneg _ (by omega)
    have hmodlt : b.weight % T < T := Int.emod_lt_of_pos _ (by omega)
    have hsum' : (st.sizes.set b.index (st.sizes.getD b.index 0 + b.weight / T)).sum
        = st.sizes.sum + b.weight / T := sum_set_add _ _ _ hbidx
    have hszpos' : ∀ s ∈ st.sizes.set b.index
        (st.sizes.getD b.index 0 + b.weight / T), 1 ≤ s := by
      intro s hs
      rcases mem_of_mem_set _ _ _ _ hs with h1 | h2
      · exact hszpos s h1
      · subst h2
        omega
    have hsum_nonneg' : ∀ s ∈ st.sizes.set b.index
        (st.sizes.getD b.index 0 + b.weight / T), 0 ≤ s := by
      intro s hs
      have := hszpos' s hs
      omega
    have hc2 : st.sizes.getD b.index 0 + b.weight / T ≤ 65533 := by
      have hmem2 : (st.sizes.set b.index
          (st.sizes.getD b.index 0 + b.weight / T)).getD b.index 0
          ∈ st.sizes.set b.index (st.sizes.getD b.index 0 + b.weight / T) :=
        getD_mem _ 0 (by rw [List.length_set]; exact hbidx)
      have hle := list_single_le_sum hsum_nonneg' hmem2
      rw [getD_set_self _ _ _ _ hbidx] at hle
      rw [hsum'] at hle
      omega
    constructor
    · unfold checkedAllocStep
      rw [if_pos hdiv, if_neg (by omega : ¬ T = 0)]
      show (chkI32 (st.allocate - b.weight / T)).bind _ = _
      rw [chkI32_ok (by omega : (-2147483648:Int) ≤ st.allocate - b.weight / T) (by omega)]
      show (if b.index < st.sizes.length then _ else none) = _
      rw [if_pos hbidx]
      rw [chkI32_ok (by omega : (-2147483648:Int) ≤ st.sizes.getD b.index 0 + b.weight / T) (by omega)]
      show (chkI32 (T * (b.weight / T))).bind _ = _
      rw [chkI32_ok (by omega : (-2147483648:Int) ≤ T * (b.weight / T)) (by omega)]
      show (chkI32 (b.weight - T * (b.weight / T))).bind _ = _
      rw [chkI32_ok (by omega : (-2147483648:Int) ≤ b.weight - T * (b.weight / T)) (by omega)]
      show some _ = _
      rw [hstepeq]
    · rw [hstepeq]
      rw [hstepeq] at hInv2 hdec hsumc
      refine ⟨hInv2, hdec, ?_, ?_, hszpos', ?_, ?_⟩
      · show st.allocate - b.weight / T ≤ 32766
        omega
      · show (st.sizes.set b.index (st.sizes.getD b.index 0 + b.weight / T)).sum
          + (st.allocate - b.weight / T) ≤ 65533
        rw [hsum']
        omega
      · intro it hit
        rcases List.mem_append.1 hit with h1 | h2
        · exact htokU it (hrmem it h1)
        · simp only [List.mem_singleton] at h2
          subst h2
          show b.weight - T * (b.weight / T) ≤ 16777216
          omega
      · intro it hit
        have hmono := hLBmono (st.allocate - b.weight / T) (by omega)
        rcases List.mem_append.1 hit with h1 | h2
        · have := htokL it (hrmem it h1)
          show -16777216 - T * (32766 - (st.allocate - b.weight / T)) ≤ it.weight
          omega
        · simp only [List.mem_singleton] at h2
          subst h2
          show -16777216 - T * (32766 - (st.allocate - b.weight / T))
            ≤ b.weight - T * (b.weight / T)
          have h0 : 0 ≤ T * (32766 - (st.allocate - b.weight / T)) :=
            mul_nonneg hT (by omega)
          omega
  · -- single-unit branch
    have hstepeq : allocStep T b rest st.sizes st.allocate =
        { sizes := st.sizes.set b.index (st.sizes.getD b.index 0 + 1)
          allocate := st.allocate - 1
          heap := rest ++ [⟨b.weight - T, b.index⟩] } := by
      simp only [allocStep]
      rw [if_neg hdiv]
    have hsum' : (st.sizes.set b.index (st.sizes.getD b.index 0 + 1)).sum
        = st.sizes.sum + 1 := sum_set_add _ _ _ hbidx
    have hszpos' : ∀ s ∈ st.sizes.set b.index (st.sizes.getD b.index 0 + 1), 1 ≤ s := by
      intro s hs
      rcases mem_of_mem_set _ _ _ _ hs with h1 | h2
      · exact hszpos s h1
      · subst h2
        omega
    have hsum_nonneg' : ∀ s ∈ st.sizes.set b.index (st.sizes.getD b.index 0 + 1),
        0 ≤ s := by
      intro s hs
      have := hszpos' s hs
      omega
    have hc2 : st.sizes.getD b.index 0 + 1 ≤ 65533 := by
      have hmem2 : (st.sizes.set b.index (st.sizes.getD b.index 0 + 1)).getD b.index 0
          ∈ st.sizes.set b.index (st.sizes.getD b.index 0 + 1) :=
        getD_mem _ 0 (by rw [List.length_set]; exact hbidx)
      have hle := list_single_le_sum hsum_nonneg' hmem2
      rw [getD_set_self _ _ _ _ hbidx] at hle
      rw [hsum'] at hle
      omega
    have hprod : T * (32766 - (st.allocate - 1)) ≤ 32385 * 32766 :=
      mul_le_mul hTc (by omega) (by omega) (by omega)
    have hmono := hLBmono st.allocate (le_refl _)
    constructor
    · unfold checkedAllocStep
      rw [if_neg hdiv]
      rw [chkI32_ok
        (by
          have h0 := hLBmono (st.allocate - 1) (by omega)
          omega : (-2147483648:Int) ≤ b.weight - T)
        (by omega)]
      show (if b.index < st.sizes.length then _ else none) = _
      rw [if_pos hbidx]
      rw [chkI32_ok (by omega : (-2147483648:Int) ≤ st.sizes.getD b.index 0 + 1) (by omega)]
      show (chkI32 (st.allocate - 1)).bind _ = _
      rw [chkI32_ok (by omega : (-2147483648:Int) ≤ st.allocate - 1) (by omega)]
      show some _ = _
      rw [hstepeq]
    · rw [hstepeq]
      rw [hstepeq] at hInv2 hdec hsumc
      refine ⟨hInv2, hdec, ?_, ?_, hszpos', ?_, ?_⟩
      · show st.allocate - 1 ≤ 32766
        omega
      · show (st.sizes.set b.index (st.sizes.getD b.index 0 + 1)).sum
          + (st.allocate - 1) ≤ 65533
        rw [hsum']
        omega
      · intro it hit
        rcases List.mem_append.1 hit with h1 | h2
        · exact htokU it (hrmem it h1)
        · simp only [List.mem_singleton] at h2
          subst h2
          show b.weight - T ≤ 16777216
          omega
      · intro it hit
        have hmono2 := hLBmono (st.allocate - 1) (by omega)
        rcases List.mem_append.1 hit with h1 | h2
        · have := htokL it (hrmem it h1)
          show -16777216 - T * (32766 - (st.allocate - 1)) ≤ it.weight
          omega
        · simp only [List.mem_singleton] at h2
          subst h2
          show -16777216 - T * (32766 - (st.allocate - 1)) ≤ b.weight - T
          have hstep1 : T * (32766 - (st.allocate - 1))
              = T * (32766 - st.allocate) + T := by ring
          omega

theorem checkedRun_lockstep {T : Int} (hT : 0 ≤ T) (hTc : T ≤ 32385) :
    ∀ (fuel : Nat) (st : AllocState), InvGen T st → st.allocate ≤ 32766 →
      st.sizes.sum + st.allocate ≤ 65533 → (∀ s ∈ st.sizes, 1 ≤ s) →
      (∀ it ∈ st.heap, it.weight ≤ 16777216) →
      (∀ it ∈ st.heap, -16777216 - T * (32766 - st.allocate) ≤ it.weight) →
      checkedAllocRun T fuel st = some (allocRun T fuel st) ∧
      ∀ st', allocRun T fuel st = some st' → ∀ s ∈ st'.sizes, 1 ≤ s := by
  intro fuel
  induction fuel with
  | zero =>
    intro st _ _ _ hszpos _ _
    refine ⟨rfl, ?_⟩
    intro st' hst'
    injection hst' with h
    subst h
    exact hszpos
  | succ n ih =>
    intro st hInv hal hcap hszpos htokU htokL
    by_cases hpos : 0 < st.allocate
    · rcases hp : popMax st.heap with _ | ⟨b, rest⟩
      · constructor
        · show (if 0 < st.allocate then _ else _) = some (allocRun T (n + 1) st)
          rw [if_pos hpos]
          show (match popMax st.heap with
            | none => some none
            | some (b, rest) =>
              (checkedAllocStep T b rest st.sizes st.allocate).bind
                (checkedAllocRun T n)) = _
          rw [hp]
          show some none = some (allocRun T (n + 1) st)
          have h2 : allocRun T (n + 1) st = none := by
            show (if 0 < st.allocate then _ else _) = none
            rw [if_pos hpos]
            show (match popMax st.heap with
              | none => none
              | some (b, rest) => allocRun T n (allocStep T b rest st.sizes st.allocate))
              = none
            rw [hp]
          rw [h2]
        · intro st' hst'
          exfalso
          have h2 : allocRun T (n + 1) st = none := by
            show (if 0 < st.allocate then _ else _) = none
            rw [if_pos hpos]
            show (match popMax st.heap with
              | none => none
              | some (b, rest) => allocRun T n (allocStep T b rest st.sizes st.allocate))
              = none
            rw [hp]
          rw [h2] at hst'
          exact Option.noConfusion hst'
      · obtain ⟨hstep, hInv2, _, hal2, hcap2, hszpos2, htokU2, htokL2⟩ :=
          checkedAllocStep_ok hT hTc hInv hpos hp hal hcap hszpos htokU htokL
        obtain ⟨ihEq, ihSz⟩ := ih (allocStep T b rest st.sizes st.allocate)
          hInv2 hal2 hcap2 hszpos2 htokU2 htokL2
        have hcr : checkedAllocRun T (n + 1) st
            = checkedAllocRun T n (allocStep T b rest st.sizes st.allocate) := by
          show (if 0 < st.allocate then _ else _) = _
          rw [if_pos hpos]
          show (match popMax st.heap with
            | none => some none
            | some (b, rest) =>
              (checkedAllocStep T b rest st.sizes st.allocate).bind
                (checkedAllocRun T n)) = _
          rw [hp]
          show (checkedAllocStep T b rest st.sizes st.allocate).bind
            (checkedAllocRun T n) = _
          rw [hstep]
          rfl
        have hr : allocRun T (n + 1) st
            = allocRun T n (allocStep T b rest st.sizes st.allocate) := by
          show (if 0 < st.allocate then _ else _) = _
          rw [if_pos hpos]
          show (match popMax st.heap with
            | none => none
            | some (b, rest) => allocRun T n (allocStep T b rest st.sizes st.allocate))
            = _
          rw [hp]
        constructor
        · rw [hcr, hr]
          exact ihEq
        · intro st' hst'
          rw [hr] at hst'
          exact ihSz st' hst'
    · constructor
      · show (if 0 < st.allocate then _ else _) = some (allocRun T (n + 1) st)
        rw [if_neg hpos]
        have h2 : allocRun T (n + 1) st = some st := by
          show (if 0 < st.allocate then _ else _) = some st
          rw [if_neg hpos]
        rw [h2]
      · intro st' hst'
        have h2 : allocRun T (n + 1) st = some st := by
          show (if 0 < st.allocate then _ else _) = some st
          rw [if_neg hpos]
        rw [h2] at hst'
        injection hst' with h
        subst h
        exact hszpos

theorem chkSum32_ok0 (l : List Int) (h1 : ∀ x ∈ l, 0 ≤ x)
    (h2 : l.sum < 2147483648) : chkSum32 0 l = some l.sum := by
  have h := chkSum32_ok l 0 le_rfl h1 (by omega)
  rw [zero_add] at h
  exact h

theorem int_mul_range_small {w a : Int} (hw0 : 0 ≤ w) (hwU : w ≤ 255)
    (haL : -32513 ≤ a) (haU : a ≤ 32767) :
    -8290815 ≤ w * a ∧ w * a ≤ 8355585 := by
  constructor
  · nlinarith [mul_nonneg hw0 (by linarith : (0:Int) ≤ a + 32513)]
  · nlinarith [mul_nonneg hw0 (by linarith : (0:Int) ≤ 32767 - a)]

theorem initHeap_weight_bounds {dims : List GridDimension}
    (hd : ∀ d ∈ dims, d.min ≤ 255 ∧ d.weight ≤ 255) {a T : Int}
    (haL : -32513 ≤ a) (haU : a ≤ 32767) (hT0 : 0 ≤ T) (hTU : T ≤ 32385) :
    ∀ it ∈ initHeap dims a T, -16777216 ≤ it.weight ∧ it.weight ≤ 16777216 := by
  intro it hit
  simp only [initHeap] at hit
  obtain ⟨p, hp, rfl⟩ := List.mem_map.1 hit
  obtain ⟨_, hmem⟩ := enum_mem_facts dims p hp
  obtain ⟨hm, hw⟩ := hd p.2 hmem
  have hw0 : (0:Int) ≤ (p.2.weight : Int) := Int.natCast_nonneg _
  have hwU : (p.2.weight : Int) ≤ 255 := by omega
  have hm0 : (0:Int) ≤ (p.2.min : Int) := Int.natCast_nonneg _
  have hmU : (p.2.min : Int) ≤ 255 := by omega
  obtain ⟨h1L, h1U⟩ := int_mul_range_small hw0 hwU haL haU
  have h2L : 0 ≤ T * (p.2.min : Int) := mul_nonneg hT0 hm0
  have h2U : T * (p.2.min : Int) ≤ 32385 * 255 := mul_le_mul hTU hmU hm0 (by omega)
  constructor
  · show -16777216 ≤ (p.2.weight : Int) * a - T * (p.2.min : Int)
    linarith
  · show (p.2.weight : Int) * a - T * (p.2.min : Int) ≤ 16777216
    linarith

theorem allocFinal_nil (length : Nat) :
    allocFinal [] length
      = if length ≤ 1 then some (initState [] length) else none := by
  by_cases h : length ≤ 1
  · rw [if_pos h]
    have hA : initAllocate [] length ≤ 0 := by
      simp only [initAllocate, initSizes, List.map_nil, List.sum_nil]
      omega
    have hf : (initAllocate [] length).toNat = 0 := by omega
    unfold allocFinal
    rw [hf]
    rfl
  · rw [if_neg h]
    have hA : 1 ≤ initAllocate [] length := by
      simp only [initAllocate, initSizes, List.map_nil, List.sum_nil]
      omega
    have hf : (initAllocate [] length).toNat
        = ((initAllocate [] length).toNat - 1) + 1 := by omega
    unfold allocFinal
    rw [hf]
    show (if 0 < (initState [] length).allocate then _ else _) = none
    rw [if_pos (show 0 < (initState [] length).allocate by
      show 0 < initAllocate [] length; omega)]
    have hh : popMax (initState [] length).heap = none := rfl
    rw [hh]

/-- C9 (amended): on the restricted domain — at most 127 dimensions, every
minimum and weight at most 255, start coordinate and available length at most
32767 — none of the intermediate arithmetic of `layout_grid_dim` leaves its
integer type: the fully guarded `layout_grid_dim_checked` (which checks every
`i32` product/sum/difference, the division, every index access and the `u16`
coordinate accumulation) succeeds and returns exactly the unguarded result.
The unamended claim over the full unsigned-16-bit domain is false: see the
counterexample, where `weight * allocate` overflows `i32`. -/
theorem C9_no_overflow (dims : List GridDimension) (start length : Nat)
    (hn : dims.length ≤ 127)
    (hd : ∀ d ∈ dims, d.min ≤ 255 ∧ d.weight ≤ 255)
    (hs : start ≤ 32767) (hl : length ≤ 32767) :
    layout_grid_dim_checked dims start length
      = some (layout_grid_dim dims start length) := by
  have hsz1 : ∀ s ∈ initSizes dims, 1 ≤ s := by
    intro s hsm
    obtain ⟨d, hdm, rfl⟩ := List.mem_map.1 hsm
    omega
  have hszU : ∀ s ∈ initSizes dims, s ≤ 256 := by
    intro s hsm
    obtain ⟨d, hdm, rfl⟩ := List.mem_map.1 hsm
    have := (hd d hdm).1
    omega
  have hsz0 : ∀ s ∈ initSizes dims, 0 ≤ s := fun s hsm => by
    have := hsz1 s hsm; omega
  have hsumU : (initSizes dims).sum ≤ 32512 := by
    have h := sum_le_length_mul 256 (initSizes dims) hszU
    rw [initSizes_length] at h
    omega
  have hsumL : 0 ≤ (initSizes dims).sum := list_sum_nonneg _ hsz0
  have hT0 : 0 ≤ totalWeight dims := totalWeight_nonneg dims
  have hwnn : ∀ x ∈ dims.map (fun d => (d.weight : Int)), 0 ≤ x := by
    intro x hx
    obtain ⟨d, hdm, rfl⟩ := List.mem_map.1 hx
    exact Int.natCast_nonneg _
  have hwle : ∀ x ∈ dims.map (fun d => (d.weight : Int)), x ≤ 255 := by
    intro x hx
    obtain ⟨d, hdm, rfl⟩ := List.mem_map.1 hx
    have := (hd d hdm).2
    omega
  have hTsum : (dims.map (fun d => (d.weight : Int))).sum ≤ 32385 := by
    have h := sum_le_length_mul 255 _ hwle
    rw [List.length_map] at h
    omega
  have hTU : totalWeight dims ≤ 32385 := hTsum
  have haL : -32513 ≤ initAllocate dims length := by
    unfold initAllocate
    omega
  have haU : initAllocate dims length ≤ 32766 := by
    unfold initAllocate
    omega
  have hmain : checkedAllocRun (totalWeight dims) ((initAllocate dims length).toNat)
      (initState dims length) = some (allocFinal dims length) ∧
      ∀ st2, allocFinal dims length = some st2 →
        st2.allocate ≤ 0 ∧ (∀ s ∈ st2.sizes, 1 ≤ s) ∧
        (start : Int) + st2.sizes.sum ≤ 65535 := by
    by_cases hA : 0 ≤ initAllocate dims length
    · have hInvI := invGen_init dims length hA
      have hHB := initHeap_weight_bounds hd haL (by omega) hT0 hTU
      obtain ⟨hEq, hSz⟩ := checkedRun_lockstep hT0 hTU
        ((initAllocate dims length).toNat) (initState dims length) hInvI
        (by show initAllocate dims length ≤ 32766; omega)
        (by show (initSizes dims).sum + initAllocate dims length ≤ 65533
            unfold initAllocate
            omega)
        hsz1
        (fun it hit => (hHB it hit).2)
        (by intro it hit
            have h1 := (hHB it hit).1
            have h2 : 0 ≤ totalWeight dims
                * (32766 - (initState dims length).allocate) :=
              mul_nonneg hT0 (by show (0:Int) ≤ 32766 - initAllocate dims length
                                 omega)
            linarith)
      refine ⟨hEq, ?_⟩
      intro st2 hAF
      have hrest : st2.allocate ≤ 0 ∧ (start : Int) + st2.sizes.sum ≤ 65535 := by
        by_cases hne : dims = []
        · subst hne
          rw [allocFinal_nil] at hAF
          by_cases hlen : length ≤ 1
          · rw [if_pos hlen] at hAF
            injection hAF with h
            subst h
            constructor
            · show initAllocate [] length ≤ 0
              simp only [initAllocate, initSizes, List.map_nil, List.sum_nil]
              omega
            · show (start : Int) + (initSizes []).sum ≤ 65535
              simp only [initSizes, List.map_nil, List.sum_nil]
              omega
          · rw [if_neg hlen] at hAF
            exact Option.noConfusion hAF
        · obtain ⟨st3, hrun3, h03, hsum3, _⟩ := invGen_run (totalWeight dims)
            ((initAllocate dims length).toNat) (initState dims length) hInvI
            (initState_heap_ne_nil hne length) (Int.self_le_toNat _)
          have hAF2 : allocFinal dims length = some st3 := hrun3
          rw [hAF] at hAF2
          injection hAF2 with h
          subst h
          have hsum4 : st2.sizes.sum
              = (initSizes dims).sum + initAllocate dims length := hsum3
          constructor
          · omega
          · unfold initAllocate at hsum4
            omega
      exact ⟨hrest.1, hSz st2 hAF, hrest.2⟩
    · have hf0 : (initAllocate dims length).toNat = 0 := by omega
      have hAF0 : allocFinal dims length = some (initState dims length) := by
        unfold allocFinal
        rw [hf0]
        rfl
      constructor
      · rw [hf0, hAF0]
        rfl
      · intro st2 hAF
        rw [hAF0] at hAF
        injection hAF with h
        subst h
        refine ⟨?_, hsz1, ?_⟩
        · show initAllocate dims length ≤ 0
          omega
        · show (start : Int) + (initSizes dims).sum ≤ 65535
          omega
  obtain ⟨hckEq, hfin⟩ := hmain
  have hfd : ∀ d ∈ dims, chkI32 (1 + (d.min : Int)) = some (1 + (d.min : Int)) := by
    intro d hdm
    have := (hd d hdm).1
    exact chkI32_ok (by omega) (by omega)
  have hinit : chkList (fun d => chkI32 (1 + (d.min : Int))) dims
      = some (initSizes dims) := by
    unfold initSizes
    exact chkList_ok (fun d => chkI32 (1 + (d.min : Int)))
      (fun d : GridDimension => 1 + (d.min : Int)) dims hfd
  have hfp : ∀ p ∈ dims.enum,
      (do
        let prod1 ← chkI32 ((p.2.weight : Int) * initAllocate dims length)
        let prod2 ← chkI32 (totalWeight dims * (p.2.min : Int))
        let w ← chkI32 (prod1 - prod2)
        pure (⟨w, p.1⟩ : WeightItem))
      = some (⟨(p.2.weight : Int) * initAllocate dims length
          - totalWeight dims * (p.2.min : Int), p.1⟩ : WeightItem) := by
    intro p hp
    obtain ⟨_, hmem⟩ := enum_mem_facts dims p hp
    obtain ⟨hm, hw⟩ := hd p.2 hmem
    have hw0 : (0:Int) ≤ (p.2.weight : Int) := Int.natCast_nonneg _
    have hwU2 : (p.2.weight : Int) ≤ 255 := by omega
    have hm0 : (0:Int) ≤ (p.2.min : Int) := Int.natCast_nonneg _
    have hmU2 : (p.2.min : Int) ≤ 255 := by omega
    obtain ⟨h1L, h1U⟩ := int_mul_range_small hw0 hwU2 haL (by omega)
    have h2L : 0 ≤ totalWeight dims * (p.2.min : Int) := mul_nonneg hT0 hm0
    have h2U : totalWeight dims * (p.2.min : Int) ≤ 32385 * 255 :=
      mul_le_mul hTU hmU2 hm0 (by omega)
    rw [chkI32_ok (by linarith) (by linarith)]
    show (chkI32 (totalWeight dims * (p.2.min : Int))).bind _ = _
    rw [chkI32_ok (by linarith) (by linarith)]
    show (chkI32 ((p.2.weight : Int) * initAllocate dims length
      - totalWeight dims * (p.2.min : Int))).bind _ = _
    rw [chkI32_ok (by linarith) (by linarith)]
    rfl
  have hheap : chkList (fun p : Nat × GridDimension => do
      let prod1 ← chkI32 ((p.2.weight : Int) * initAllocate dims length)
      let prod2 ← chkI32 (totalWeight dims * (p.2.min : Int))
      let w ← chkI32 (prod1 - prod2)
      pure (⟨w, p.1⟩ : WeightItem)) dims.enum
      = some (initHeap dims (initAllocate dims length) (totalWeight dims)) :=
    chkList_ok _
      (fun p : Nat × GridDimension =>
        (⟨(p.2.weight : Int) * initAllocate dims length
          - totalWeight dims * (p.2.min : Int), p.1⟩ : WeightItem)) dims.enum hfp
  unfold layout_grid_dim_checked
  refine Option.bind_eq_some.2 ⟨initSizes dims, hinit, ?_⟩
  refine Option.bind_eq_some.2 ⟨(initSizes dims).sum,
    chkSum32_ok0 _ hsz0 (by omega), ?_⟩
  refine Option.bind_eq_some.2 ⟨(length : Int) - (initSizes dims).sum,
    chkI32_ok (by omega) (by omega), ?_⟩
  refine Option.bind_eq_some.2 ⟨initAllocate dims length,
    chkI32_ok (by omega) (by omega), ?_⟩
  refine Option.bind_eq_some.2 ⟨totalWeight dims,
    chkSum32_ok0 _ hwnn (by omega), ?_⟩
  refine Option.bind_eq_some.2
    ⟨initHeap dims (initAllocate dims length) (totalWeight dims), hheap, ?_⟩
  refine Option.bind_eq_some.2 ⟨allocFinal dims length, hckEq, ?_⟩
  rcases hAF : allocFinal dims length with _ | st2
  · show some [] = some (layout_grid_dim dims start length)
    unfold layout_grid_dim
    rw [hAF]
  · obtain ⟨hA0, hSz2, hCap2⟩ := hfin st2 hAF
    show (if 0 < st2.allocate then none else chkAcc start st2.sizes)
      = some (layout_grid_dim dims start length)
    rw [if_neg (by omega)]
    rw [chkAcc_ok st2.sizes start hSz2 hCap2]
    unfold layout_grid_dim
    rw [hAF]

/-- Witness for the amended C9 at a concrete input: two dimensions
`{min:1, weight:2}`, `{min:0, weight:1}`, start 3, length 10 — the guarded
computation succeeds and the boundary list is `[3, 8, 12]`. -/
theorem C9_no_overflow_witness :
    layout_grid_dim_checked [⟨1, 2⟩, ⟨0, 1⟩] 3 10
      = some (layout_grid_dim [⟨1, 2⟩, ⟨0, 1⟩] 3 10) ∧
    layout_grid_dim [⟨1, 2⟩, ⟨0, 1⟩] 3 10 = [3, 8, 12] :=
  ⟨C9_no_overflow [⟨1, 2⟩, ⟨0, 1⟩] 3 10 (by decide) (by decide) (by decide)
    (by decide), by decide⟩
